import Mathlib

/-!
toolman: a shallow embedding of `main.go`.

`toolman` keeps a Go source file (`tools.go`) whose blank imports name the
tools of a project, and runs `go install` on them.  This file embeds the
functions of `main.go` (`pathnameFlag.Set`, `main`, `addImport`,
`extractImports`, `installTools`, `writeTools`) together with the parts of the
Go libraries they call, and proves properties of them.

Conventions of the embedding:

* A Go `string` is a sequence of bytes: `GoString := List Nat`.  Go compares
  strings bytewise, which is the lexicographic order of `List Nat`.
* Go functions that mutate their `*ast.File` argument return the new file next
  to their ordinary result.
* `nil` errors are `none`; a call of `log.Fatal` ends the run with exit status 1.
* The library functions are those of Go 1.24 and later.  There
  `ast.SortImports` ends by rebuilding `f.Imports` from the import
  declarations; in earlier releases it left `f.Imports` as it was.
-/

namespace Toolman

/-! ## Strings -/

/-- A Go string: its bytes. -/
abbrev GoString := List Nat

/-- The bytes of an ASCII literal. -/
def str (s : String) : GoString := s.toList.map Char.toNat

/-! ## unicode/utf8 -/

namespace utf8

def RuneError : Nat := 0xFFFD
def RuneSelf : Nat := 0x80
def MaxRune : Nat := 0x10FFFF
def surrogateMin : Nat := 0xD800
def surrogateMax : Nat := 0xDFFF
def rune1Max : Nat := 0x7F
def rune2Max : Nat := 0x7FF
def rune3Max : Nat := 0xFFFF

/-- The table `first`: information about the first byte of an encoding.
`0xF0` (`as`) is ASCII, `0xF1` (`xx`) is an illegal starter; otherwise the low
three bits are the size and the high four bits index `acceptRanges`. -/
def first (b : Nat) : Nat :=
  if b < 0x80 then 0xF0
  else if b < 0xC2 then 0xF1
  else if b < 0xE0 then 0x02
  else if b = 0xE0 then 0x13
  else if b < 0xED then 0x03
  else if b = 0xED then 0x23
  else if b < 0xF0 then 0x03
  else if b = 0xF0 then 0x34
  else if b < 0xF4 then 0x04
  else if b = 0xF4 then 0x44
  else 0xF1

/-- The table `acceptRanges`: the range allowed for the second byte. -/
def acceptRanges (i : Nat) : Nat × Nat :=
  match i with
  | 0 => (0x80, 0xBF)
  | 1 => (0xA0, 0xBF)
  | 2 => (0x80, 0x9F)
  | 3 => (0x90, 0xBF)
  | 4 => (0x80, 0x8F)
  | _ => (0, 0)

/-- `utf8.DecodeRuneInString`: the first rune of `s` and its width in bytes;
`(RuneError, 0)` for the empty string and `(RuneError, 1)` for an invalid
encoding. -/
def DecodeRuneInString (s : GoString) : Nat × Nat :=
  match s with
  | [] => (RuneError, 0)
  | s0 :: t =>
    let x := first s0
    if x ≥ 0xF0 then
      (if x = 0xF0 then s0 else RuneError, 1)
    else
      let sz := x % 8
      let accept := acceptRanges (x / 16)
      if s.length < sz then (RuneError, 1)
      else
        let s1 := t.getD 0 0
        if s1 < accept.1 ∨ accept.2 < s1 then (RuneError, 1)
        else if sz ≤ 2 then ((s0 % 32) * 64 + s1 % 64, 2)
        else
          let s2 := t.getD 1 0
          if s2 < 0x80 ∨ 0xBF < s2 then (RuneError, 1)
          else if sz ≤ 3 then ((s0 % 16) * 4096 + (s1 % 64) * 64 + s2 % 64, 3)
          else
            let s3 := t.getD 2 0
            if s3 < 0x80 ∨ 0xBF < s3 then (RuneError, 1)
            else ((s0 % 8) * 262144 + (s1 % 64) * 4096 + (s2 % 64) * 64 + s3 % 64, 4)

/-- `utf8.ValidRune`. -/
def ValidRune (r : Nat) : Bool :=
  if r < surrogateMin then true
  else if surrogateMax < r ∧ r ≤ MaxRune then true
  else false

/-- `utf8.AppendRune` applied to an empty buffer: the encoding of `r`. -/
def EncodeRune (r : Nat) : GoString :=
  if r ≤ rune1Max then [r]
  else if r ≤ rune2Max then [0xC0 + r / 64, 0x80 + r % 64]
  else if r > MaxRune ∨ (surrogateMin ≤ r ∧ r ≤ surrogateMax) then
    [0xE0 + RuneError / 4096, 0x80 + RuneError / 64 % 64, 0x80 + RuneError % 64]
  else if r ≤ rune3Max then [0xE0 + r / 4096, 0x80 + r / 64 % 64, 0x80 + r % 64]
  else [0xF0 + r / 262144, 0x80 + r / 4096 % 64, 0x80 + r / 64 % 64, 0x80 + r % 64]

/-- The loop of `utf8.ValidString`; `fuel` bounds the number of iterations. -/
def validLoop : Nat → GoString → Bool
  | 0, _ => true
  | _ + 1, [] => true
  | fuel + 1, si :: t =>
    if si < RuneSelf then validLoop fuel t
    else
      let x := first si
      if x = 0xF1 then false
      else
        let size := x % 8
        if (si :: t).length < size then false
        else
          let accept := acceptRanges (x / 16)
          let c1 := t.getD 0 0
          if c1 < accept.1 ∨ accept.2 < c1 then false
          else if size = 2 then validLoop fuel (t.drop 1)
          else
            let c2 := t.getD 1 0
            if c2 < 0x80 ∨ 0xBF < c2 then false
            else if size = 3 then validLoop fuel (t.drop 2)
            else
              let c3 := t.getD 2 0
              if c3 < 0x80 ∨ 0xBF < c3 then false
              else validLoop fuel (t.drop 3)

/-- `utf8.ValidString`. -/
def ValidString (s : GoString) : Bool := validLoop s.length s

end utf8

/-! ## strconv -/

namespace strconv

/-- `unhex`: the value of a hexadecimal digit. -/
def unhex (b : Nat) : Option Nat :=
  if 48 ≤ b ∧ b ≤ 57 then some (b - 48)
  else if 97 ≤ b ∧ b ≤ 102 then some (b - 97 + 10)
  else if 65 ≤ b ∧ b ≤ 70 then some (b - 65 + 10)
  else none

/-- Reads `n` hexadecimal digits: `v = v<<4 | x` for each. -/
def readHex : Nat → GoString → Nat → Option (Nat × GoString)
  | 0, s, v => some (v, s)
  | _ + 1, [], _ => none
  | n + 1, c :: s, v =>
    match unhex c with
    | none => none
    | some x => readHex n s (v * 16 + x)

/-- Reads the two remaining octal digits of an escape: `v = (v << 3) | x`. -/
def readOct : Nat → GoString → Nat → Option (Nat × GoString)
  | 0, s, v => some (v, s)
  | _ + 1, [], _ => none
  | n + 1, c :: s, v =>
    if c < 48 ∨ c > 55 then none else readOct n s (v * 8 + (c - 48))

/-- `strconv.UnquoteChar`: decodes the first character or escape sequence of
`s`; the result is the value, whether it is a multibyte rune, and the tail.
`none` is `ErrSyntax`. -/
def UnquoteChar (s : GoString) (quote : Nat) : Option (Nat × Bool × GoString) :=
  match s with
  | [] => none
  | c :: t =>
    if c = quote ∧ (quote = 39 ∨ quote = 34) then none
    else if c ≥ utf8.RuneSelf then
      let d := utf8.DecodeRuneInString s
      some (d.1, true, s.drop d.2)
    else if c ≠ 92 then some (c, false, t)
    else
      match t with
      | [] => none
      | e :: s2 =>
        if e = 97 then some (7, false, s2)
        else if e = 98 then some (8, false, s2)
        else if e = 102 then some (12, false, s2)
        else if e = 110 then some (10, false, s2)
        else if e = 114 then some (13, false, s2)
        else if e = 116 then some (9, false, s2)
        else if e = 118 then some (11, false, s2)
        else if e = 120 ∨ e = 117 ∨ e = 85 then
          let n := if e = 120 then 2 else if e = 117 then 4 else 8
          if s2.length < n then none
          else
            match readHex n s2 0 with
            | none => none
            | some (v, s3) =>
              if e = 120 then some (v, false, s3)
              else if utf8.ValidRune v then some (v, true, s3)
              else none
        else if 48 ≤ e ∧ e ≤ 55 then
          if s2.length < 2 then none
          else
            match readOct 2 s2 (e - 48) with
            | none => none
            | some (v, s3) => if v > 255 then none else some (v, false, s3)
        else if e = 92 then some (92, false, s2)
        else if e = 39 ∨ e = 34 then
          if e ≠ quote then none else some (e, false, s2)
        else none

/-- `index(s, c)`: the position of the first `c` in `s`, if any. -/
def index (s : GoString) (c : Nat) : Option Nat :=
  match s with
  | [] => none
  | b :: t => if b = c then some 0 else (index t c).map (· + 1)

/-- `contains(s, c)`. -/
def contains (s : GoString) (c : Nat) : Bool := (index s c).isSome

/-- The loop of `unquote` over a quoted string with escape sequences: consumes
characters up to the terminating quote.  Returns the decoded bytes and the
input left (starting at the terminating quote when there is one); `none` is
`ErrSyntax`. -/
def unquoteLoop (quote : Nat) : Nat → GoString → GoString → Option (GoString × GoString)
  | 0, inp, buf => some (buf, inp)
  | fuel + 1, inp, buf =>
    match inp with
    | [] => some (buf, inp)
    | c :: _ =>
      if c = quote then some (buf, inp)
      else
        match UnquoteChar inp quote with
        | none => none
        | some (r, multibyte, rem) =>
          if c = 10 then none
          else
            let buf1 := if r < utf8.RuneSelf ∨ ¬ multibyte then buf ++ [r % 256]
                        else buf ++ utf8.EncodeRune r
            if quote = 39 then some (buf1, rem)
            else unquoteLoop quote fuel rem buf1

/-- `strconv.unquote` with `unescape = true`: the unquoted prefix of `inp`, the
remainder after it, and whether an error occurred. -/
def unquote (inp : GoString) : GoString × GoString × Bool :=
  if inp.length < 2 then ([], inp, true)
  else
    let quote := inp.headD 0
    match index (inp.drop 1) quote with
    | none => ([], inp, true)
    | some e =>
      let stop := e + 2
      if quote = 96 then
        if ¬ contains (inp.take stop) 13 then
          ((inp.take (stop - 1)).drop 1, inp.drop stop, false)
        else
          (((inp.take (stop - 1)).drop 1).filter (· ≠ 13), inp.drop stop, false)
      else if quote = 34 ∨ quote = 39 then
        let simple : Bool :=
          if ¬ contains (inp.take stop) 92 ∧ ¬ contains (inp.take stop) 10 then
            if quote = 34 then utf8.ValidString ((inp.take (stop - 1)).drop 1)
            else
              let d := utf8.DecodeRuneInString ((inp.take (stop - 1)).drop 1)
              decide (1 + d.2 + 1 = stop ∧ (d.1 ≠ utf8.RuneError ∨ d.2 ≠ 1))
          else false
        if simple then ((inp.take (stop - 1)).drop 1, inp.drop stop, false)
        else
          match unquoteLoop quote inp.length (inp.drop 1) [] with
          | none => ([], inp, true)
          | some (buf, rest) =>
            match rest with
            | [] => ([], inp, true)
            | c :: rest1 => if c = quote then (buf, rest1, false) else ([], inp, true)
      else ([], inp, true)

/-- `strconv.Unquote`: the string a Go string or character literal denotes;
`none` when `s` is not a well-formed literal. -/
def Unquote (s : GoString) : Option GoString :=
  let r := unquote s
  if r.2.1.length > 0 then none
  else if r.2.2 then none
  else some r.1

/-- The string `lowerhex`, indexed. -/
def lowerhex (i : Nat) : Nat := (str "0123456789abcdef").getD i 0

/-- `strconv.IsPrint`.  Latin-1 is decided by the fast path of the function;
`table` stands for the Unicode tables (`isPrint16`, `isNotPrint16`, `isPrint32`,
`isNotPrint32`) that it searches for larger runes. -/
def IsPrint (table : Nat → Bool) (r : Nat) : Bool :=
  if r ≤ 0xFF then
    if 0x20 ≤ r ∧ r ≤ 0x7E then true
    else if 0xA1 ≤ r ∧ r ≤ 0xFF then r ≠ 0xAD
    else false
  else table r

/-- `appendEscapedRune` with `ASCIIonly = false` and `graphicOnly = false`. -/
def appendEscapedRune (table : Nat → Bool) (buf : GoString) (r : Nat) (quote : Nat) : GoString :=
  if r = quote ∨ r = 92 then buf ++ [92, r % 256]
  else if IsPrint table r then buf ++ utf8.EncodeRune r
  else if r = 7 then buf ++ str "\\a"
  else if r = 8 then buf ++ str "\\b"
  else if r = 12 then buf ++ str "\\f"
  else if r = 10 then buf ++ str "\\n"
  else if r = 13 then buf ++ str "\\r"
  else if r = 9 then buf ++ str "\\t"
  else if r = 11 then buf ++ str "\\v"
  else if r < 32 ∨ r = 0x7F then
    buf ++ str "\\x" ++ [lowerhex (r % 256 / 16), lowerhex (r % 16)]
  else
    let r1 := if utf8.ValidRune r then r else 0xFFFD
    if r1 < 0x10000 then
      buf ++ str "\\u" ++
        [lowerhex (r1 / 4096 % 16), lowerhex (r1 / 256 % 16), lowerhex (r1 / 16 % 16),
         lowerhex (r1 % 16)]
    else
      buf ++ str "\\U" ++
        [lowerhex (r1 / 268435456 % 16), lowerhex (r1 / 16777216 % 16),
         lowerhex (r1 / 1048576 % 16), lowerhex (r1 / 65536 % 16),
         lowerhex (r1 / 4096 % 16), lowerhex (r1 / 256 % 16), lowerhex (r1 / 16 % 16),
         lowerhex (r1 % 16)]

/-- The loop of `appendQuotedWith` over the runes of `s`. -/
def quoteLoop (table : Nat → Bool) (quote : Nat) : Nat → GoString → GoString → GoString
  | 0, _, buf => buf
  | fuel + 1, s, buf =>
    match s with
    | [] => buf
    | s0 :: _ =>
      let d := if s0 ≥ utf8.RuneSelf then utf8.DecodeRuneInString s else (s0, 1)
      if d.2 = 1 ∧ d.1 = utf8.RuneError then
        quoteLoop table quote fuel (s.drop 1)
          (buf ++ str "\\x" ++ [lowerhex (s0 % 256 / 16), lowerhex (s0 % 16)])
      else
        quoteLoop table quote fuel (s.drop d.2) (appendEscapedRune table buf d.1 quote)

/-- `strconv.Quote`: a double-quoted Go string literal denoting `s`. -/
def Quote (table : Nat → Bool) (s : GoString) : GoString :=
  quoteLoop table 34 s.length s [34] ++ [34]

end strconv

/-! ## go/ast, go/parser, go/printer, go/format, astutil

Of a parsed file the program uses the import declarations and the list
`f.Imports`.  The rest of an `*ast.File` (other declarations, comments, token
positions) is carried along as an uninterpreted value that the program only
hands back to library functions.

Positions enter the behaviour of the library in one way: `ast.SortImports`
sorts the specs of a parenthesised declaration run by run, where a run is a
maximal sequence of specs on successive lines.  A declaration therefore holds
its specs already split into these runs.  Each spec is taken to be written on
one line (a path literal holds no newline); then sorting a run, which hands
the positions of the run to the sorted specs in order, and removing a
duplicate, which merges its line into the next, leave the runs where they
are. -/

namespace ast

/-- An `*ast.Ident`. -/
structure Ident where
  Name : GoString
  deriving DecidableEq, Repr

/-- An `*ast.BasicLit` of kind `token.STRING`; `Value` is the literal as it is
written, quotes included. -/
structure BasicLit where
  Value : GoString
  deriving DecidableEq, Repr

/-- An `*ast.ImportSpec`: the local name (`none` for `nil`), the path literal,
and the text of the line comment after the spec (`Comment.Text()`, `none` when
`Comment` is `nil`). -/
structure ImportSpec where
  Name : Option Ident
  Path : BasicLit
  Comment : Option GoString
  deriving DecidableEq, Repr

/-- An import declaration, an `*ast.GenDecl` with `Tok == token.IMPORT`.
`Lparen` is `d.Lparen.IsValid()`: whether the declaration is a parenthesised
block.  `Runs` is `d.Specs` split into runs: a spec starts a new run when its
line is more than one past the line on which the spec before it ends. -/
structure GenDecl where
  Lparen : Bool
  Runs : List (List ImportSpec)
  deriving DecidableEq, Repr

/-- The field `d.Specs`. -/
def GenDecl.Specs (d : GenDecl) : List ImportSpec := d.Runs.flatten

/-- The import specs of the declarations, in order. -/
def specsOf (decls : List GenDecl) : List ImportSpec := decls.flatMap GenDecl.Specs

/-- An `*ast.File` with its token.FileSet.  `Decls` holds the import
declarations of `f.Decls`, which stand before all other declarations.
`Imports` is the field `f.Imports`.  `Syntax` is the rest of the tree. -/
structure File (σ : Type) where
  Decls : List GenDecl
  Imports : List ImportSpec
  Syntax : σ

/-- The file the parser returns for the given import declarations: the parser
appends every import spec to `f.Imports` as it parses the spec, so the list
holds the specs of all declarations in the order of the text. -/
def File.ofDecls {σ : Type} (decls : List GenDecl) (syn : σ) : File σ :=
  { Decls := decls, Imports := specsOf decls, Syntax := syn }

/-- `importPath` of go/ast: the unquoted import path of `s`, or the empty
string if the path is not properly quoted. -/
def importPath (s : ImportSpec) : GoString :=
  match strconv.Unquote s.Path.Value with
  | none => []
  | some t => t

/-- `importName` of go/ast: the name of `s`, or the empty string. -/
def importName (s : ImportSpec) : GoString :=
  match s.Name with
  | none => []
  | some n => n.Name

/-- `importComment` of go/ast: the text of the comment of `s`, or the empty
string. -/
def importComment (s : ImportSpec) : GoString :=
  match s.Comment with
  | none => []
  | some c => c

/-- `collapse(prev, next)`: whether `prev` may be removed, leaving only
`next`. -/
def collapse (prev next : ImportSpec) : Bool :=
  if importPath next ≠ importPath prev ∨ importName next ≠ importName prev then false
  else prev.Comment.isNone

/-- The comparison `sortSpecs` sorts by, as a total preorder: by import path,
then by name, then by comment. -/
def specLE (a b : ImportSpec) : Prop :=
  importPath a < importPath b ∨
    (importPath a = importPath b ∧
      (importName a < importName b ∨
        (importName a = importName b ∧ importComment a ≤ importComment b)))

instance : DecidableRel specLE := fun a b =>
  inferInstanceAs (Decidable (importPath a < importPath b ∨
    (importPath a = importPath b ∧
      (importName a < importName b ∨
        (importName a = importName b ∧ importComment a ≤ importComment b)))))

instance : IsTotal ImportSpec specLE :=
  ⟨fun a b => by
    unfold specLE
    rcases lt_trichotomy (importPath a) (importPath b) with h | h | h
    · exact Or.inl (Or.inl h)
    · rcases lt_trichotomy (importName a) (importName b) with g | g | g
      · exact Or.inl (Or.inr ⟨h, Or.inl g⟩)
      · rcases le_total (importComment a) (importComment b) with c | c
        · exact Or.inl (Or.inr ⟨h, Or.inr ⟨g, c⟩⟩)
        · exact Or.inr (Or.inr ⟨h.symm, Or.inr ⟨g.symm, c⟩⟩)
      · exact Or.inr (Or.inr ⟨h.symm, Or.inl g⟩)
    · exact Or.inr (Or.inl h)⟩

instance : IsTrans ImportSpec specLE :=
  ⟨fun a b c hab hbc => by
    unfold specLE at hab hbc ⊢
    rcases hab with h | ⟨h, hab⟩
    · rcases hbc with g | ⟨g, _⟩
      · exact Or.inl (lt_trans h g)
      · exact Or.inl (g ▸ h)
    · rcases hbc with g | ⟨g, hbc⟩
      · exact Or.inl (h ▸ g)
      · refine Or.inr ⟨h.trans g, ?_⟩
        rcases hab with n | ⟨n, hab⟩
        · rcases hbc with m | ⟨m, _⟩
          · exact Or.inl (lt_trans n m)
          · exact Or.inl (m ▸ n)
        · rcases hbc with m | ⟨m, hbc⟩
          · exact Or.inl (n ▸ m)
          · exact Or.inr ⟨n.trans m, le_trans hab hbc⟩⟩

/-- The loop of `sortSpecs` that removes duplicates from the sorted specs: a
spec is dropped when `collapse` allows it in favour of the spec after it. -/
def dedup : List ImportSpec → List ImportSpec
  | [] => []
  | [s] => [s]
  | s :: next :: rest =>
    if collapse s next then dedup (next :: rest) else s :: dedup (next :: rest)

/-- `sortSpecs(fset, f, specs)` on one run: a lone spec is left alone;
otherwise the specs are sorted and duplicates removed.  `slices.SortFunc` is
not stable; the model keeps specs that compare equal in their order. -/
def sortSpecs (specs : List ImportSpec) : List ImportSpec :=
  if specs.length ≤ 1 then specs else dedup (specs.insertionSort specLE)

/-- The body of the loop of `ast.SortImports` for one import declaration: a
declaration without parentheses is skipped ("Not a block: sorted by
default"); in a block every run of specs is sorted. -/
def sortDecl (d : GenDecl) : GenDecl :=
  if d.Lparen then { Lparen := d.Lparen, Runs := d.Runs.map sortSpecs } else d

end ast

/-- The library functions the program calls on the uninterpreted part of a
file, and the Unicode tables of `strconv`. -/
structure GoLib (σ : Type) where
  /-- The tables of `strconv.IsPrint` for runes above `0xFF`. -/
  isPrintTable : Nat → Bool
  /-- Models `parser.ParseFile(fset, "tools.go", data, parser.ParseComments)`:
  the import declarations and the rest of the file; `none` is a syntax
  error. -/
  ParseFile : GoString → Option (List ast.GenDecl × σ)
  /-- What `ast.SortImports` leaves in the uninterpreted part. -/
  sortImportsSyntax : ast.File σ → σ
  /-- What `astutil.AddNamedImport` leaves in the uninterpreted part when it
  inserts the given spec. -/
  addNamedImportSyntax : ast.File σ → ast.ImportSpec → σ
  /-- The import declarations `astutil.AddNamedImport` leaves when the file
  has several import declarations and the function merges them into the first
  one.  The runs of the merged declaration depend on byte offsets (a moved
  spec keeps the position of its name and takes the position of the first
  declaration for its path), which the model does not hold. -/
  mergedDecls : ast.File σ → ast.ImportSpec → List ast.GenDecl
  /-- Merging keeps every spec and adds the new one. -/
  mergedDecls_specs : ∀ f s,
    (ast.specsOf (mergedDecls f s)).Perm (ast.specsOf f.Decls ++ [s])
  /-- Models `printer.Fprint` into a buffer: the text, or `none` for an error. -/
  Fprint : ast.File σ → Option GoString
  /-- Models the text `format.Node` produces, or `none` for an error. -/
  formatNode : ast.File σ → Option GoString

namespace ast

/-- `ast.SortImports(fset, f)`: in every parenthesised import declaration,
sorts each run of specs and removes duplicates; declarations without
parentheses are skipped.  At the end the function rebuilds `f.Imports` from
the import declarations ("Make File.Imports order consistent"), so the list
holds the specs of the declarations in their new order. -/
def SortImports {σ : Type} (L : GoLib σ) (f : File σ) : File σ :=
  { Decls := f.Decls.map sortDecl,
    Imports := specsOf (f.Decls.map sortDecl),
    Syntax := L.sortImportsSyntax f }

end ast

namespace astutil

/-- `importName`: the name of `s`, or the empty string if the import is not
named. -/
def importName (s : ast.ImportSpec) : GoString :=
  match s.Name with
  | none => []
  | some n => n.Name

/-- `importPath`: the unquoted import path of `s`, or the empty string if the
path is not properly quoted. -/
def importPath (s : ast.ImportSpec) : GoString :=
  match strconv.Unquote s.Path.Value with
  | none => []
  | some t => t

/-- `imports`: whether `f` has an import with the specified name and path. -/
def imports {σ : Type} (f : ast.File σ) (name path : GoString) : Bool :=
  f.Imports.any (fun s => decide (importName s = name ∧ importPath s = path))

/-- `declImports`: whether the declaration contains an import of `path`. -/
def declImports (gen : ast.GenDecl) (path : GoString) : Bool :=
  gen.Specs.any (fun s => decide (importPath s = path))

/-- `matchLen`: the number of slashes in the longest common prefix of `x` and
`y`, which is the length of the longest path segment prefix they share. -/
def matchLen : GoString → GoString → Nat
  | a :: x, b :: y => if a = b then (if a = 47 then 1 else 0) + matchLen x y else 0
  | _, _ => 0

/-- `isThirdParty`: whether the import path contains a dot. -/
def isThirdParty (importPath : GoString) : Bool := decide (46 ∈ importPath)

/-- The loop of `AddNamedImport` over the specs of one declaration, looking
for the spec whose path shares the longest prefix with `path`.  `j` is the
index of the first spec of the list; the result is `bestMatch` and
`impIndex`. -/
def bestSpec (path : GoString) : List ast.ImportSpec → Nat → Int → Int → Bool → Int × Int
  | [], _, bestMatch, impIndex, _ => (bestMatch, impIndex)
  | spec :: specs, j, bestMatch, impIndex, seenAnyThirdParty =>
    if (matchLen (importPath spec) path : Int) > bestMatch ∨
        (bestMatch = 0 ∧ ¬ seenAnyThirdParty ∧ isThirdParty path) then
      bestSpec path specs (j + 1) (matchLen (importPath spec) path) j
        (seenAnyThirdParty || isThirdParty (importPath spec))
    else
      bestSpec path specs (j + 1) bestMatch impIndex
        (seenAnyThirdParty || isThirdParty (importPath spec))

/-- Inserts the new spec at index `k` of the specs of a declaration.  The new
spec is given the position of the spec before it, so it joins that spec's
run. -/
def insertSpec : List (List ast.ImportSpec) → Nat → ast.ImportSpec → List (List ast.ImportSpec)
  | [], _, new => [[new]]
  | run :: runs, k, new =>
    if k ≤ run.length then (run.take k ++ new :: run.drop k) :: runs
    else run :: insertSpec runs (k - run.length) new

/-- The import declarations after `AddNamedImport` inserted `newImport`.
Without an import declaration, or with a single one that imports "C", the
spec becomes a declaration of its own after it.  With a single declaration
otherwise, the spec is inserted after the spec that matches best, and the
declaration is parenthesised exactly when it then has more than one spec.
With several declarations the function merges them, see
`GoLib.mergedDecls`. -/
def addedDecls {σ : Type} (L : GoLib σ) (f : ast.File σ) (path : GoString)
    (newImport : ast.ImportSpec) : List ast.GenDecl :=
  match f.Decls with
  | [] => [{ Lparen := false, Runs := [[newImport]] }]
  | [d] =>
    if declImports d (str "C") then [d, { Lparen := false, Runs := [[newImport]] }]
    else
      let impIndex := (bestSpec path d.Specs 0 (-1) (-1) false).2
      let insertAt := if impIndex ≥ 0 then (impIndex + 1).toNat else 0
      let runs := insertSpec d.Runs insertAt newImport
      [{ Lparen := decide (runs.flatten.length ≠ 1), Runs := runs }]
  | _ => L.mergedDecls f newImport

/-- `astutil.AddNamedImport(fset, f, name, path)`: adds the import unless the
file already has one with that name and path; reports whether it added it.
The new spec is inserted into an import declaration and appended to
`f.Imports`. -/
def AddNamedImport {σ : Type} (L : GoLib σ) (f : ast.File σ) (name path : GoString) :
    ast.File σ × Bool :=
  if imports f name path then (f, false)
  else
    let newImport : ast.ImportSpec :=
      { Name := if name ≠ [] then some { Name := name } else none,
        Path := { Value := strconv.Quote L.isPrintTable path },
        Comment := none }
    ({ Decls := addedDecls L f path newImport,
       Imports := f.Imports ++ [newImport],
       Syntax := L.addNamedImportSyntax f newImport }, true)

end astutil

/-! ## path -/

namespace path

/-- The inner loop of the `..` case of `path.Clean`:
`for out.w > dotdot && out.index(out.w) != '/' { out.w-- }`; the result is the
final `out.w`. -/
def backtrack (buf : GoString) (dotdot : Nat) : Nat → Nat → Nat
  | 0, w => w
  | fuel + 1, w =>
    if w > dotdot ∧ buf.getD w 0 ≠ 47 then backtrack buf dotdot fuel (w - 1) else w

/-- The main loop of `path.Clean`.  `rest` is `path[r:]`, `out` the bytes
written so far (`out.w` is its length), `dotdot` the index where `..` must
stop. -/
def cleanLoop (rooted : Bool) : Nat → GoString → GoString → Nat → GoString
  | 0, _, out, _ => out
  | fuel + 1, rest, out, dotdot =>
    match rest with
    | [] => out
    | c :: t =>
      if c = 47 then cleanLoop rooted fuel t out dotdot
      else if c = 46 ∧ (t = [] ∨ t.head? = some 47) then cleanLoop rooted fuel t out dotdot
      else if c = 46 ∧ t.head? = some 46 ∧ (t.drop 1 = [] ∨ (t.drop 1).head? = some 47) then
        if out.length > dotdot then
          cleanLoop rooted fuel (t.drop 1)
            (out.take (backtrack out dotdot out.length (out.length - 1))) dotdot
        else if ¬ rooted then
          let out1 := (if out.length > 0 then out ++ [47] else out) ++ [46, 46]
          cleanLoop rooted fuel (t.drop 1) out1 out1.length
        else cleanLoop rooted fuel (t.drop 1) out dotdot
      else
        let out1 :=
          if (rooted ∧ out.length ≠ 1) ∨ (¬ rooted ∧ out.length ≠ 0) then out ++ [47] else out
        cleanLoop rooted fuel (rest.dropWhile (· ≠ 47)) (out1 ++ rest.takeWhile (· ≠ 47)) dotdot

/-- `path.Clean`: the shortest path name equivalent to `path`. -/
def Clean (path : GoString) : GoString :=
  if path = [] then str "."
  else
    let rooted : Bool := path.head? = some 47
    let out :=
      if rooted then cleanLoop rooted path.length (path.drop 1) [47] 1
      else cleanLoop rooted path.length path [] 0
    if out.length = 0 then str "." else out

/-- `path.Join(a, b)`: joins the non-empty elements with a slash and cleans
the result; the empty string when both are empty. -/
def Join (a b : GoString) : GoString :=
  if a.length + b.length = 0 then []
  else if a = [] then Clean b
  else if b = [] then Clean a
  else Clean (a ++ [47] ++ b)

end path

/-! ## main.go -/

/-- The errors of the program, one per place that creates or wraps one. -/
inductive Err where
  /-- "please don't specify an empty pathname" -/
  | emptyPathname
  /-- "unable to get current working directory" -/
  | getwd
  /-- "something is very wrong" -/
  | veryWrong
  /-- "cannot open tools file" -/
  | cannotOpen
  /-- "cannot write tools file" -/
  | cannotWrite
  /-- "cannot close tools file" -/
  | cannotClose
  /-- "cannot parse tools file" -/
  | cannotParse
  /-- The error of closing the file that was read. -/
  | closeRead
  /-- "already tracking: %s" -/
  | alreadyTracking (tool : GoString)
  /-- "cannot unquote value" -/
  | cannotUnquote
  /-- "unable to install" -/
  | unableToInstall
  /-- "cannot generate tools file" -/
  | cannotGenerate
  /-- "cannot open tools file for writing" -/
  | cannotOpenForWriting
  /-- "cannot write to tools file" -/
  | cannotWriteTo
  /-- "cannot close tools file", from writeTools -/
  | cannotCloseWritten
  deriving DecidableEq, Repr

/-- The comparison `sort.Slice` is given in `addImport`, as a total preorder:
spec `a` may stand before spec `b` when `b.Path.Value < a.Path.Value` is
false. -/
def pathLE (a b : ast.ImportSpec) : Prop := a.Path.Value ≤ b.Path.Value

instance : DecidableRel pathLE := fun a b =>
  inferInstanceAs (Decidable (a.Path.Value ≤ b.Path.Value))

instance : IsTotal ast.ImportSpec pathLE := ⟨fun a b => le_total a.Path.Value b.Path.Value⟩

instance : IsTrans ast.ImportSpec pathLE :=
  ⟨fun _ _ _ hab hbc => le_trans (α := GoString) hab hbc⟩

/-- `sort.Slice(f.Imports, less)` with `less(i, j)` being
`f.Imports[i].Path.Value < f.Imports[j].Path.Value`.  `sort.Slice` is not
stable; the model keeps specs with equal literals in their order. -/
def sortSlice (imports : List ast.ImportSpec) : List ast.ImportSpec :=
  imports.insertionSort pathLE

/-- `addImport(fset, f, importpath)`: the file afterwards and the error.
`flagToolToAdd` is the global variable the error message prints. -/
def addImport {σ : Type} (L : GoLib σ) (flagToolToAdd : GoString) (f : ast.File σ)
    (importpath : GoString) : ast.File σ × Option Err :=
  let r := astutil.AddNamedImport L f (str "_") importpath
  if ¬ r.2 then (r.1, some (Err.alreadyTracking flagToolToAdd))
  else
    let f1 := ast.SortImports L r.1
    ({ Decls := f1.Decls, Imports := sortSlice f1.Imports, Syntax := f1.Syntax }, none)

/-- The loop of `extractImports`: unquotes the path of each import and appends
it to `imports`; stops with `nil` and an error at the first that fails. -/
def extractLoop : List ast.ImportSpec → List GoString → Option (List GoString)
  | [], imports => some imports
  | imp :: rest, imports =>
    match strconv.Unquote imp.Path.Value with
    | none => none
    | some p => extractLoop rest (imports ++ [p])

/-- `extractImports(fset, f)`: the file afterwards, and the paths or the
error. -/
def extractImports {σ : Type} (L : GoLib σ) (f : ast.File σ) :
    ast.File σ × Except Err (List GoString) :=
  let f1 := ast.SortImports L f
  match extractLoop f1.Imports [] with
  | none => (f1, Except.error Err.cannotUnquote)
  | some imports => (f1, Except.ok imports)


/-! ### The flags -/

/-- `(*pathnameFlag).Set`: the flag value afterwards and the error. -/
def pathnameFlag.Set (f : GoString) (pathname : GoString) : GoString × Option Err :=
  if pathname = [] then (f, some Err.emptyPathname)
  else (path.Clean pathname, none)

/-- `(*pathnameFlag).String`. -/
def pathnameFlag.String (f : GoString) : GoString := f

/-- The three global flag variables. -/
structure Flags where
  flagToolsFilePathname : GoString
  flagInit : Bool
  flagToolToAdd : GoString
  deriving DecidableEq, Repr

/-- A command line: the value of `-f` when the flag is given, whether `-init`
is given, and the value of `-add` when the flag is given. -/
structure CmdLine where
  f : Option GoString
  init : Bool
  add : Option GoString
  deriving DecidableEq, Repr

/-- `flag.Parse()` for the flags `main` registers.  The variables start at
their zero values and defaults; `-f v` calls `Set(v)`, and an error of `Set`
makes `flag.Parse` report it and exit with status 2. -/
def flagParse (args : CmdLine) : Flags × Option Err :=
  let r : GoString × Option Err :=
    match args.f with
    | none => ([], none)
    | some v => pathnameFlag.Set [] v
  ({ flagToolsFilePathname := r.1, flagInit := args.init,
     flagToolToAdd := args.add.getD [] }, r.2)

/-! ### The operating system -/

/-- The system calls of the program that can fail for reasons the model does
not track (permissions, a full disk, a missing directory). -/
inductive Sys where
  | Getwd
  | Open
  | ReadAll
  | CloseRead
  | Create
  | WriteString
  | CloseCreated
  | OpenTrunc
  | Write
  | CloseWritten
  deriving DecidableEq, Repr

/-- What the program observably does, in order. -/
inductive Event where
  /-- The named file now holds this content. -/
  | stored (pathname content : GoString)
  /-- The line `log.Println("installing", t)`. -/
  | installing (tool : GoString)
  /-- The command `go install tool` was run; `ok` is whether `cmd.Run`
  returned `nil`. -/
  | ran (tool : GoString) (ok : Bool)
  deriving DecidableEq, Repr

/-- The environment of a run.  `ι` is the state of the Go toolchain (module
cache, installed binaries), which `go install` reads and changes. -/
structure OS (ι : Type) where
  /-- The working directory, `none` when `os.Getwd` fails. -/
  cwd : Option GoString
  /-- Whether the given system call fails for an untracked reason. -/
  fault : Sys → Bool
  /-- What is left in a file of the text whose write failed. -/
  torn : GoString → GoString
  /-- Running `go install t`: the toolchain afterwards and whether the command
  succeeded. -/
  goInstall : ι → GoString → ι × Bool

/-- The state a run changes: the files, the toolchain, and the events so
far. -/
structure World (ι : Type) where
  files : GoString → Option GoString
  toolchain : ι
  trace : List Event

/-- The files after `pathname` is given `content`. -/
def setFile (files : GoString → Option GoString) (pathname content : GoString) :
    GoString → Option GoString :=
  fun p => if p = pathname then some content else files p

/-- The world after `pathname` is given `content`. -/
def World.store {ι : Type} (w : World ι) (pathname content : GoString) : World ι :=
  { files := setFile w.files pathname content, toolchain := w.toolchain,
    trace := w.trace ++ [Event.stored pathname content] }

/-- How a run ends: normally, by `log.Fatal` (status 1), or in `flag.Parse`
(status 2). -/
inductive Exit where
  | ok
  | fatal (e : Err)
  | usage (e : Err)
  deriving DecidableEq, Repr

/-- The text `main` writes with `-init`. -/
def boilerplate : GoString :=
  str "// +build toolman\n//go:generate go run github.com/execjosh/toolman\n\npackage toolman\n"

/-! ### The functions -/

/-- `installTools(tools...)`: runs `go install` on each tool in order and
returns at the first failure. -/
def installTools {ι : Type} (O : OS ι) : List GoString → World ι → World ι × Option Err
  | [], w => (w, none)
  | t :: tools, w =>
    let r := O.goInstall w.toolchain t
    let w1 : World ι :=
      { files := w.files, toolchain := r.1,
        trace := w.trace ++ [Event.installing t, Event.ran t r.2] }
    if ¬ r.2 then (w1, some Err.unableToInstall)
    else installTools O tools w1

/-- `parse(r)`: reads all of the opened file and parses it. -/
def parse {σ ι : Type} (L : GoLib σ) (O : OS ι) (data : GoString) : Option (ast.File σ) :=
  if O.fault Sys.ReadAll then none
  else
    match L.ParseFile data with
    | none => none
    | some r => some (ast.File.ofDecls r.1 r.2)

/-- `writeTools(fset, f, pathname)`. -/
def writeTools {σ ι : Type} (L : GoLib σ) (O : OS ι) (f : ast.File σ) (pathname : GoString)
    (w : World ι) : World ι × Option Err :=
  match L.Fprint f with
  | none => (w, some Err.cannotGenerate)
  | some _ =>
    if O.fault Sys.OpenTrunc then (w, some Err.cannotOpenForWriting)
    else
      let w1 := w.store pathname []
      match L.formatNode f with
      | none => (w1, some Err.cannotWriteTo)
      | some text =>
        if O.fault Sys.Write then (w1.store pathname (O.torn text), some Err.cannotWriteTo)
        else
          let w2 := w1.store pathname text
          if O.fault Sys.CloseWritten then (w2, some Err.cannotCloseWritten)
          else (w2, none)

/-- The `if flagInit` block of `main`: creates the file exclusively and writes
the boilerplate. -/
def initMode {ι : Type} (O : OS ι) (pathname : GoString) (w : World ι) : World ι × Exit :=
  if (w.files pathname).isSome ∨ O.fault Sys.Create then (w, Exit.fatal Err.cannotOpen)
  else
    let w1 := w.store pathname []
    if O.fault Sys.WriteString then
      (w1.store pathname (O.torn boilerplate), Exit.fatal Err.cannotWrite)
    else
      let w2 := w1.store pathname boilerplate
      if O.fault Sys.CloseCreated then (w2, Exit.fatal Err.cannotClose)
      else (w2, Exit.ok)

/-- How `main` ends after its last call: `log.Fatal(err)` when the error is not
`nil`, a normal return otherwise. -/
def exitOf {ι : Type} (r : World ι × Option Err) : World ι × Exit :=
  match r.2 with
  | some e => (r.1, Exit.fatal e)
  | none => (r.1, Exit.ok)

/-- The part of `main` after the file is parsed and closed: add mode or
default mode, then `installTools`. -/
def runMode {σ ι : Type} (L : GoLib σ) (O : OS ι) (flags : Flags) (f : ast.File σ)
    (w : World ι) : World ι × Exit :=
  if flags.flagToolToAdd ≠ [] then
    let a := addImport L flags.flagToolToAdd f flags.flagToolToAdd
    match a.2 with
    | some e => (w, Exit.fatal e)
    | none =>
      let wr := writeTools L O a.1 (pathnameFlag.String flags.flagToolsFilePathname) w
      match wr.2 with
      | some e => (wr.1, Exit.fatal e)
      | none => exitOf (installTools O [flags.flagToolToAdd] wr.1)
  else
    match (extractImports L f).2 with
    | Except.error e => (w, Exit.fatal e)
    | Except.ok toolpaths => exitOf (installTools O toolpaths w)

/-- The part of `main` after the manifest path is resolved. -/
def mainResolved {σ ι : Type} (L : GoLib σ) (O : OS ι) (flags : Flags) (w : World ι) :
    World ι × Exit :=
  if flags.flagInit then initMode O (pathnameFlag.String flags.flagToolsFilePathname) w
  else
    match w.files (pathnameFlag.String flags.flagToolsFilePathname) with
    | none => (w, Exit.fatal Err.cannotOpen)
    | some data =>
      if O.fault Sys.Open then (w, Exit.fatal Err.cannotOpen)
      else
        match parse L O data with
        | none => (w, Exit.fatal Err.cannotParse)
        | some f =>
          if O.fault Sys.CloseRead then (w, Exit.fatal Err.closeRead)
          else runMode L O flags f w

/-- The manifest path resolution of `main`: when no `-f` value is stored, the
path is `tools.go` in the working directory. -/
def resolve {ι : Type} (O : OS ι) (flags : Flags) : Flags × Option Err :=
  if pathnameFlag.String flags.flagToolsFilePathname = [] then
    match (if O.fault Sys.Getwd then none else O.cwd) with
    | none => (flags, some Err.getwd)
    | some cwd =>
      let r := pathnameFlag.Set flags.flagToolsFilePathname (path.Join cwd (str "tools.go"))
      ({ flagToolsFilePathname := r.1, flagInit := flags.flagInit,
         flagToolToAdd := flags.flagToolToAdd },
       r.2.map (fun _ => Err.veryWrong))
  else (flags, none)

/-- The function `main`. -/
def main {σ ι : Type} (L : GoLib σ) (O : OS ι) (args : CmdLine) (w : World ι) :
    World ι × Exit :=
  let p := flagParse args
  match p.2 with
  | some e => (w, Exit.usage e)
  | none =>
    let r := resolve O p.1
    match r.2 with
    | some e => (w, Exit.fatal e)
    | none => mainResolved L O r.1 w

/-- The manifest path `main` works on: the value of `flagToolsFilePathname`
after the flags are parsed and the default is resolved. -/
def manifestPath {ι : Type} (O : OS ι) (args : CmdLine) : GoString :=
  pathnameFlag.String (resolve O (flagParse args).1).1.flagToolsFilePathname

/-! ### Reading a trace -/

/-- The installer invocation an event records, if it records one. -/
def Event.invocation : Event → Option (GoString × Bool)
  | Event.ran tool ok => some (tool, ok)
  | _ => none

/-- The installer invocations of a trace, in order: the tool and whether the
command succeeded. -/
def invocations (trace : List Event) : List (GoString × Bool) :=
  trace.filterMap Event.invocation

/-- The events of installing the tools of `outcomes` with the given results. -/
def installEvents (outcomes : List (GoString × Bool)) : List Event :=
  outcomes.flatMap (fun p => [Event.installing p.1, Event.ran p.1 p.2])

/-- A blank import of the path with the given literal: `_ lit`. -/
def blankImport (lit : GoString) : ast.ImportSpec :=
  { Name := some { Name := str "_" }, Path := { Value := lit }, Comment := none }

/-- An import declaration without parentheses: `import _ lit`. -/
def importDecl (lit : GoString) : ast.GenDecl :=
  { Lparen := false, Runs := [[blankImport lit]] }

/-- The invocations of a run of `go install` over `tools` from the toolchain
state `s` that stops after the first command that fails. -/
def runUntilFailure {ι : Type} (O : OS ι) : ι → List GoString → List (GoString × Bool)
  | _, [] => []
  | s, t :: tools =>
    (t, (O.goInstall s t).2) ::
      (if (O.goInstall s t).2 then runUntilFailure O (O.goInstall s t).1 tools else [])

/-! ### Example data -/

/-- The text of a manifest with one import block. -/
def exManifest : GoString :=
  str "package toolman\n\nimport (\n\t_ \"example.com/b/tool\"\n\t_ \"example.com/a/tool\"\n)\n"

/-- The import declarations of `exManifest`: one block, one run. -/
def exDecls : List ast.GenDecl :=
  [{ Lparen := true,
     Runs := [[blankImport (str "\"example.com/b/tool\""),
               blankImport (str "\"example.com/a/tool\"")]] }]

/-- The text of a manifest whose import block has two groups, separated by a
blank line. -/
def exGroupsManifest : GoString :=
  str "package toolman\n\nimport (\n\t_ \"example.com/z/tool\"\n\n\t_ \"example.com/a/tool\"\n)\n"

/-- The import declarations of `exGroupsManifest`: one block, two runs. -/
def exGroupsDecls : List ast.GenDecl :=
  [{ Lparen := true,
     Runs := [[blankImport (str "\"example.com/z/tool\"")],
              [blankImport (str "\"example.com/a/tool\"")]] }]

/-- The text of `exGroupsManifest` with the second path written as a raw
string literal. -/
def exRawManifest : GoString :=
  str "package toolman\n\nimport (\n\t_ \"example.com/z/tool\"\n\n\t_ \x60example.com/a/tool\x60\n)\n"

/-- The import declarations of `exRawManifest`. -/
def exRawDecls : List ast.GenDecl :=
  [{ Lparen := true,
     Runs := [[blankImport (str "\"example.com/z/tool\"")],
              [blankImport (str "\x60example.com/a/tool\x60")]] }]

/-- The document `exLib` parses `exManifest` to. -/
def exParsed : ast.File Unit := ast.File.ofDecls exDecls ()

/-- A library instance over files without further syntax.  Its parser knows
the three example texts, its printer writes the path literals of the
declarations, one per line, and it merges several declarations into one
block that holds their runs and then the new spec. -/
def exLib : GoLib Unit :=
  { isPrintTable := fun _ => false,
    ParseFile := fun data =>
      if data = exManifest then some (exDecls, ())
      else if data = exGroupsManifest then some (exGroupsDecls, ())
      else if data = exRawManifest then some (exRawDecls, ())
      else none,
    sortImportsSyntax := fun _ => (),
    addNamedImportSyntax := fun _ _ => (),
    mergedDecls := fun f s =>
      [{ Lparen := true, Runs := f.Decls.flatMap (fun d => d.Runs) ++ [[s]] }],
    mergedDecls_specs := fun f s => by
      simp only [ast.specsOf, ast.GenDecl.Specs, List.flatMap, List.flatten_append,
        List.map_cons, List.map_nil, List.flatten_cons, List.flatten_nil, List.append_nil]
      induction f.Decls with
      | nil => simp
      | cons d ds ih => simpa using ih.append_left d.Runs.flatten,
    Fprint := fun f => some ((ast.specsOf f.Decls).flatMap (fun s => s.Path.Value ++ [10])),
    formatNode := fun f => some ((ast.specsOf f.Decls).flatMap (fun s => s.Path.Value ++ [10])) }

/-- An environment without faults whose installer fails on the tool `b` and
counts the commands it ran. -/
def exOS : OS Nat :=
  { cwd := some (str "/work"),
    fault := fun _ => false,
    torn := fun _ => [],
    goInstall := fun n t => (n + 1, decide (t ≠ str "b")) }

/-- A world whose only file is the manifest `/work/tools.go`. -/
def exWorld : World Nat :=
  { files := fun p => if p = str "/work/tools.go" then some exManifest else none,
    toolchain := 0,
    trace := [] }

/-- A world without files. -/
def emptyWorld : World Nat :=
  { files := fun _ => none, toolchain := 0, trace := [] }

/-- The document `exLib` parses `exGroupsManifest` to. -/
def exGroups : ast.File Unit := ast.File.ofDecls exGroupsDecls ()

/-- The document `exLib` parses `exRawManifest` to. -/
def exRawGroups : ast.File Unit := ast.File.ofDecls exRawDecls ()

/-- A manifest document with a blank import of `example.com/a/tool`. -/
def exTracked : ast.File Unit :=
  ast.File.ofDecls [importDecl (str "\"example.com/a/tool\"")] ()

/-! ## Theorems -/

/-! ### installTools -/

theorem installTools_trace {ι : Type} (O : OS ι) (tools : List GoString) (w : World ι) :
    (installTools O tools w).1.trace =
      w.trace ++ installEvents (runUntilFailure O w.toolchain tools) := by
  induction tools generalizing w with
  | nil => simp [installTools, runUntilFailure, installEvents]
  | cons t tools ih =>
    by_cases h : (O.goInstall w.toolchain t).2 = true
    · simp [installTools, runUntilFailure, installEvents, h, ih]
    · simp [installTools, runUntilFailure, installEvents, h]

theorem installTools_files {ι : Type} (O : OS ι) (tools : List GoString) (w : World ι) :
    (installTools O tools w).1.files = w.files := by
  induction tools generalizing w with
  | nil => simp [installTools]
  | cons t tools ih =>
    by_cases h : (O.goInstall w.toolchain t).2 = true
    · simp [installTools, h, ih]
    · simp [installTools, h]

theorem installTools_error {ι : Type} (O : OS ι) (tools : List GoString) (w : World ι) :
    ((installTools O tools w).2 = none ∨ (installTools O tools w).2 = some Err.unableToInstall) ∧
    ((installTools O tools w).2 ≠ none ↔
      ∃ p ∈ runUntilFailure O w.toolchain tools, p.2 = false) := by
  induction tools generalizing w with
  | nil => simp [installTools, runUntilFailure]
  | cons t tools ih =>
    by_cases h : (O.goInstall w.toolchain t).2 = true
    · have := ih { files := w.files, toolchain := (O.goInstall w.toolchain t).1,
                   trace := w.trace ++ [Event.installing t, Event.ran t (O.goInstall w.toolchain t).2] }
      simp only [installTools, runUntilFailure, h] at this ⊢
      simpa using this
    · simp [installTools, runUntilFailure, h]

theorem runUntilFailure_prefix {ι : Type} (O : OS ι) (s : ι) (tools : List GoString) :
    (runUntilFailure O s tools).map Prod.fst = tools.take (runUntilFailure O s tools).length := by
  induction tools generalizing s with
  | nil => simp [runUntilFailure]
  | cons t tools ih =>
    by_cases h : (O.goInstall s t).2 = true
    · simp [runUntilFailure, h, ih]
    · simp [runUntilFailure, h]

theorem runUntilFailure_init_ok {ι : Type} (O : OS ι) (s : ι) (tools : List GoString) (i : Nat)
    (hi : i + 1 < (runUntilFailure O s tools).length) :
    ((runUntilFailure O s tools).map Prod.snd).getD i false = true := by
  induction tools generalizing s i with
  | nil => simp [runUntilFailure] at hi
  | cons t tools ih =>
    by_cases h : (O.goInstall s t).2 = true
    · cases i with
      | zero => simp [runUntilFailure, h]
      | succ j =>
        simp only [runUntilFailure, h, if_true, List.length_cons] at hi
        have := ih (O.goInstall s t).1 j (by omega)
        simpa [runUntilFailure, h] using this
    · simp [runUntilFailure, h] at hi

theorem runUntilFailure_all {ι : Type} (O : OS ι) (s : ι) (tools : List GoString)
    (h : ∀ p ∈ runUntilFailure O s tools, p.2 = true) :
    (runUntilFailure O s tools).length = tools.length := by
  induction tools generalizing s with
  | nil => simp [runUntilFailure]
  | cons t tools ih =>
    have h0 : (O.goInstall s t).2 = true := h (t, (O.goInstall s t).2) (by simp [runUntilFailure])
    simp only [runUntilFailure, h0, if_true, List.length_cons, add_left_inj]
    apply ih
    intro p hp
    apply h
    simp [runUntilFailure, h0, hp]

/-- C4: `installTools` invokes the installer on the tools in the given order,
once each, and stops after the first invocation that fails: the invocations it
adds to the trace are those of `runUntilFailure`, whose tools are a prefix of
the sequence, in which no invocation but the last can have failed, and which
is the whole sequence when none fails; it returns an error exactly when one of
these invocations failed.  With `a`, `b`, `c` where `a` succeeds and `b` then
fails, `a` and `b` are attempted, `c` is not, and the error is returned. -/
theorem installTools_stops_at_first_failure {ι : Type} (O : OS ι) (tools : List GoString)
    (w : World ι) :
    (installTools O tools w).1.trace =
        w.trace ++ installEvents (runUntilFailure O w.toolchain tools) ∧
    (runUntilFailure O w.toolchain tools).map Prod.fst =
        tools.take (runUntilFailure O w.toolchain tools).length ∧
    (∀ i, i + 1 < (runUntilFailure O w.toolchain tools).length →
        ((runUntilFailure O w.toolchain tools).map Prod.snd).getD i false = true) ∧
    ((∀ p ∈ runUntilFailure O w.toolchain tools, p.2 = true) →
        (runUntilFailure O w.toolchain tools).length = tools.length) ∧
    ((installTools O tools w).2 ≠ none ↔
        ∃ p ∈ runUntilFailure O w.toolchain tools, p.2 = false) ∧
    (∀ a b c : GoString, tools = [a, b, c] →
      (O.goInstall w.toolchain a).2 = true →
      (O.goInstall (O.goInstall w.toolchain a).1 b).2 = false →
        invocations (installTools O tools w).1.trace =
            invocations w.trace ++ [(a, true), (b, false)] ∧
        (installTools O tools w).2 = some Err.unableToInstall) := by
  refine ⟨installTools_trace O tools w, runUntilFailure_prefix O _ tools,
    fun i hi => runUntilFailure_init_ok O _ tools i hi,
    runUntilFailure_all O _ tools, (installTools_error O tools w).2, ?_⟩
  intro a b c ht ha hb
  subst ht
  simp [installTools, ha, hb, invocations, Event.invocation, List.filterMap_append]

/-- C4 on the tools `a`, `b`, `c` with an installer that fails on `b`. -/
theorem installTools_stops_at_first_failure_witness :
    [str "a", str "b", str "c"] = [str "a", str "b", str "c"] ∧
    (exOS.goInstall emptyWorld.toolchain (str "a")).2 = true ∧
    (exOS.goInstall (exOS.goInstall emptyWorld.toolchain (str "a")).1 (str "b")).2 = false ∧
    invocations (installTools exOS [str "a", str "b", str "c"] emptyWorld).1.trace =
      invocations emptyWorld.trace ++ [(str "a", true), (str "b", false)] ∧
    (installTools exOS [str "a", str "b", str "c"] emptyWorld).2 = some Err.unableToInstall :=
  ⟨rfl, by decide, by decide,
    (installTools_stops_at_first_failure exOS [str "a", str "b", str "c"] emptyWorld).2.2.2.2.2
      (str "a") (str "b") (str "c") rfl (by decide) (by decide)⟩

/-! ### extractImports -/

theorem extractLoop_eq (l : List ast.ImportSpec) (acc : List GoString) :
    extractLoop l acc =
      if l.all (fun s => (strconv.Unquote s.Path.Value).isSome) then
        some (acc ++ l.filterMap (fun s => strconv.Unquote s.Path.Value))
      else none := by
  induction l generalizing acc with
  | nil => simp [extractLoop]
  | cons s l ih =>
    cases h : strconv.Unquote s.Path.Value with
    | none => simp [extractLoop, h]
    | some p => simp [extractLoop, h, ih, List.filterMap_cons]

theorem filterMap_forall₂ (l : List ast.ImportSpec)
    (h : ∀ s ∈ l, (strconv.Unquote s.Path.Value).isSome) :
    List.Forall₂ (fun s p => strconv.Unquote s.Path.Value = some p) l
      (l.filterMap (fun s => strconv.Unquote s.Path.Value)) := by
  induction l with
  | nil => simp
  | cons s l ih =>
    have hs := h s (by simp)
    obtain ⟨p, hp⟩ := Option.isSome_iff_exists.mp hs
    rw [List.filterMap_cons, hp]
    exact List.Forall₂.cons hp (ih (fun t ht => h t (by simp [ht])))

theorem extractImports_ok {σ : Type} (L : GoLib σ) (f : ast.File σ)
    (h : ∀ s ∈ (ast.SortImports L f).Imports, (strconv.Unquote s.Path.Value).isSome) :
    (extractImports L f).2 =
      Except.ok ((ast.SortImports L f).Imports.filterMap
        (fun s => strconv.Unquote s.Path.Value)) := by
  have hall : (ast.SortImports L f).Imports.all
      (fun s => (strconv.Unquote s.Path.Value).isSome) = true := by
    simpa using h
  simp [extractImports, extractLoop_eq, hall]

theorem extractImports_error {σ : Type} (L : GoLib σ) (f : ast.File σ)
    (h : ¬ ∀ s ∈ (ast.SortImports L f).Imports, (strconv.Unquote s.Path.Value).isSome) :
    (extractImports L f).2 = Except.error Err.cannotUnquote := by
  have hall : ¬ (ast.SortImports L f).Imports.all
      (fun s => (strconv.Unquote s.Path.Value).isSome) = true := by
    simpa using h
  simp [extractImports, extractLoop_eq, hall]

theorem extractImports_ok_iff {σ : Type} (L : GoLib σ) (f : ast.File σ) (l : List GoString) :
    (extractImports L f).2 = Except.ok l ↔
      (∀ s ∈ (ast.SortImports L f).Imports, (strconv.Unquote s.Path.Value).isSome) ∧
      l = (ast.SortImports L f).Imports.filterMap (fun s => strconv.Unquote s.Path.Value) := by
  by_cases h : ∀ s ∈ (ast.SortImports L f).Imports, (strconv.Unquote s.Path.Value).isSome
  · rw [extractImports_ok L f h]
    constructor
    · intro e
      injection e with e
      exact ⟨h, e.symm⟩
    · rintro ⟨_, e⟩
      rw [e]
  · rw [extractImports_error L f h]
    constructor
    · intro e
      cases e
    · rintro ⟨h', _⟩
      exact absurd h' h

/-- C6: `extractImports` fails, returning no paths, exactly when the path
literal of some import of the document (as `ast.SortImports` leaves it) cannot
be unquoted; otherwise it returns one entry per import, in the same order,
each the unquoted form of that import's path literal. -/
theorem extractImports_fails_iff_bad_literal {σ : Type} (L : GoLib σ) (f : ast.File σ) :
    ((extractImports L f).2 = Except.error Err.cannotUnquote ↔
      ∃ s ∈ (ast.SortImports L f).Imports, strconv.Unquote s.Path.Value = none) ∧
    ((¬ ∃ s ∈ (ast.SortImports L f).Imports, strconv.Unquote s.Path.Value = none) →
      ∃ paths, (extractImports L f).2 = Except.ok paths ∧
        List.Forall₂ (fun s p => strconv.Unquote s.Path.Value = some p)
          (ast.SortImports L f).Imports paths) := by
  by_cases h : ∀ s ∈ (ast.SortImports L f).Imports, (strconv.Unquote s.Path.Value).isSome
  · have hno : ¬ ∃ s ∈ (ast.SortImports L f).Imports, strconv.Unquote s.Path.Value = none := by
      rintro ⟨s, hs, e⟩
      have := h s hs
      simp [e] at this
    refine ⟨⟨fun e => ?_, fun e => absurd e hno⟩, fun _ => ?_⟩
    · rw [extractImports_ok L f h] at e
      cases e
    · exact ⟨_, extractImports_ok L f h, filterMap_forall₂ _ h⟩
  · have hex : ∃ s ∈ (ast.SortImports L f).Imports, strconv.Unquote s.Path.Value = none := by
      by_contra hc
      apply h
      intro s hs
      cases e : strconv.Unquote s.Path.Value with
      | none => exact absurd ⟨s, hs, e⟩ hc
      | some p => rfl
    exact ⟨⟨fun _ => hex, fun _ => extractImports_error L f h⟩, fun hn => absurd hex hn⟩

/-- C6 on a document with one well-formed import. -/
theorem extractImports_fails_iff_bad_literal_witness :
    (¬ ∃ s ∈ (ast.SortImports exLib exTracked).Imports,
        strconv.Unquote s.Path.Value = none) ∧
    ∃ paths, (extractImports exLib exTracked).2 = Except.ok paths ∧
      List.Forall₂ (fun s p => strconv.Unquote s.Path.Value = some p)
        (ast.SortImports exLib exTracked).Imports paths :=
  ⟨by decide,
   (extractImports_fails_iff_bad_literal exLib exTracked).2 (by decide)⟩

/-- C1 (the code at the failing input): on a manifest with two import
declarations without parentheses, of `example.com/b/tool` and then of
`example.com/a/tool`, `extractImports` returns the two paths in that order,
which is not ascending: `ast.SortImports` sorts inside parenthesised blocks
only. -/
theorem extractImports_keeps_source_order {σ : Type} (L : GoLib σ) (syn : σ) :
    (extractImports L
        (ast.File.ofDecls [importDecl (str "\"example.com/b/tool\""),
          importDecl (str "\"example.com/a/tool\"")] syn)).2 =
      Except.ok [str "example.com/b/tool", str "example.com/a/tool"] ∧
    ¬ List.Sorted (· ≤ ·) [str "example.com/b/tool", str "example.com/a/tool"] := by
  constructor
  · rfl
  · decide

/-- C5 (the code at the failing input): on a manifest with two import
declarations without parentheses, both of `example.com/a/tool`,
`extractImports` returns the path twice: `ast.SortImports` removes duplicates
inside parenthesised blocks only, and `extractImports` removes none. -/
theorem extractImports_keeps_duplicates {σ : Type} (L : GoLib σ) (syn : σ) :
    (extractImports L
        (ast.File.ofDecls [importDecl (str "\"example.com/a/tool\""),
          importDecl (str "\"example.com/a/tool\"")] syn)).2 =
      Except.ok [str "example.com/a/tool", str "example.com/a/tool"] ∧
    ¬ List.Nodup [str "example.com/a/tool", str "example.com/a/tool"] := by
  constructor
  · rfl
  · decide

/-! ### strconv.Quote and strconv.Unquote

Every string of bytes is the value of its quoted literal: `Unquote (Quote s) = s`.
The proof follows the loop of `Quote` one character at a time. -/

theorem first_xx (s0 : Nat) (h : 128 ≤ s0) (h' : s0 < 0xC2 ∨ 0xF4 < s0) : utf8.first s0 = 0xF1 := by
  unfold utf8.first
  split_ifs
  all_goals omega

theorem first_s1 (s0 : Nat) (h : 0xC2 ≤ s0) (h' : s0 < 0xE0) : utf8.first s0 = 0x02 := by
  unfold utf8.first
  split_ifs
  all_goals omega

theorem first_s3 (s0 : Nat) (h : 0xE1 ≤ s0) (h' : s0 < 0xF0) (h'' : s0 ≠ 0xED) :
    utf8.first s0 = 0x03 := by
  unfold utf8.first
  split_ifs
  all_goals omega

theorem first_s6 (s0 : Nat) (h : 0xF1 ≤ s0) (h' : s0 < 0xF4) : utf8.first s0 = 0x04 := by
  unfold utf8.first
  split_ifs
  all_goals omega

theorem first_s2 : utf8.first 0xE0 = 0x13 := by decide

theorem first_s4 : utf8.first 0xED = 0x23 := by decide

theorem first_s5 : utf8.first 0xF0 = 0x34 := by decide

theorem first_s7 : utf8.first 0xF4 = 0x44 := by decide

/-- The result of `DecodeRuneInString` once the entry of `first` is known. -/
theorem decode_eq (s0 : Nat) (t : GoString) (x : Nat) (hx : utf8.first s0 = x) (hlt : x < 0xF0) :
    utf8.DecodeRuneInString (s0 :: t) =
      if (s0 :: t).length < x % 8 then (utf8.RuneError, 1)
      else if t.getD 0 0 < (utf8.acceptRanges (x / 16)).1 ∨ (utf8.acceptRanges (x / 16)).2 < t.getD 0 0
        then (utf8.RuneError, 1)
      else if x % 8 ≤ 2 then ((s0 % 32) * 64 + t.getD 0 0 % 64, 2)
      else if t.getD 1 0 < 0x80 ∨ 0xBF < t.getD 1 0 then (utf8.RuneError, 1)
      else if x % 8 ≤ 3 then ((s0 % 16) * 4096 + (t.getD 0 0 % 64) * 64 + t.getD 1 0 % 64, 3)
      else if t.getD 2 0 < 0x80 ∨ 0xBF < t.getD 2 0 then (utf8.RuneError, 1)
      else ((s0 % 8) * 262144 + (t.getD 0 0 % 64) * 4096 + (t.getD 1 0 % 64) * 64 + t.getD 2 0 % 64, 4) := by
  have : ¬ (x ≥ 0xF0) := by omega
  simp only [utf8.DecodeRuneInString, hx, this, if_false]

theorem decode2 (s0 s1 : Nat) (X : GoString) (hf : utf8.first s0 = 0x02)
    (h1 : 0x80 ≤ s1) (h1' : s1 ≤ 0xBF) :
    utf8.DecodeRuneInString (s0 :: s1 :: X) = ((s0 % 32) * 64 + s1 % 64, 2) := by
  rw [decode_eq s0 _ 2 hf (by omega)]
  have h : ¬ (s1 < 0x80 ∨ 0xBF < s1) := by omega
  simp [utf8.acceptRanges, h]

theorem decode2_err (s0 : Nat) (t : GoString) (hf : utf8.first s0 = 0x02)
    (h : ∀ s1 X, t = s1 :: X → ¬ (0x80 ≤ s1 ∧ s1 ≤ 0xBF)) :
    utf8.DecodeRuneInString (s0 :: t) = (utf8.RuneError, 1) := by
  rw [decode_eq s0 _ 2 hf (by omega)]
  rcases t with _ | ⟨s1, X⟩
  · simp
  · have h' : s1 < 0x80 ∨ 0xBF < s1 := by
      have := h s1 X rfl
      omega
    simp [utf8.acceptRanges, h']

theorem decode3 (s0 s1 s2 : Nat) (X : GoString) (x lo hi : Nat) (hf : utf8.first s0 = x)
    (hx : x % 8 = 3) (hlt : x < 0xF0) (ha : utf8.acceptRanges (x / 16) = (lo, hi))
    (h1 : lo ≤ s1) (h1' : s1 ≤ hi) (h2 : 0x80 ≤ s2) (h2' : s2 ≤ 0xBF) :
    utf8.DecodeRuneInString (s0 :: s1 :: s2 :: X) =
      ((s0 % 16) * 4096 + (s1 % 64) * 64 + s2 % 64, 3) := by
  rw [decode_eq s0 _ x hf hlt, ha, hx]
  have h : ¬ (s1 < lo ∨ hi < s1) := by omega
  have h' : ¬ (s2 < 0x80 ∨ 0xBF < s2) := by omega
  simp [h, h']

theorem decode3_err (s0 : Nat) (t : GoString) (x lo hi : Nat) (hf : utf8.first s0 = x)
    (hx : x % 8 = 3) (hlt : x < 0xF0) (ha : utf8.acceptRanges (x / 16) = (lo, hi))
    (h : ∀ s1 s2 X, t = s1 :: s2 :: X → ¬ (lo ≤ s1 ∧ s1 ≤ hi ∧ 0x80 ≤ s2 ∧ s2 ≤ 0xBF)) :
    utf8.DecodeRuneInString (s0 :: t) = (utf8.RuneError, 1) := by
  rw [decode_eq s0 t x hf hlt, ha, hx]
  rcases t with _ | ⟨s1, _ | ⟨s2, X⟩⟩
  · simp
  · simp
  · have := h s1 s2 X rfl
    by_cases h1 : s1 < lo ∨ hi < s1
    · simp [h1]
    · have h2 : s2 < 0x80 ∨ 0xBF < s2 := by omega
      simp [h2]

theorem decode4 (s0 s1 s2 s3 : Nat) (X : GoString) (x lo hi : Nat) (hf : utf8.first s0 = x)
    (hx : x % 8 = 4) (hlt : x < 0xF0) (ha : utf8.acceptRanges (x / 16) = (lo, hi))
    (h1 : lo ≤ s1) (h1' : s1 ≤ hi) (h2 : 0x80 ≤ s2) (h2' : s2 ≤ 0xBF)
    (h3 : 0x80 ≤ s3) (h3' : s3 ≤ 0xBF) :
    utf8.DecodeRuneInString (s0 :: s1 :: s2 :: s3 :: X) =
      ((s0 % 8) * 262144 + (s1 % 64) * 4096 + (s2 % 64) * 64 + s3 % 64, 4) := by
  rw [decode_eq s0 _ x hf hlt, ha, hx]
  have h : ¬ (s1 < lo ∨ hi < s1) := by omega
  have h' : ¬ (s2 < 0x80 ∨ 0xBF < s2) := by omega
  have h'' : ¬ (s3 < 0x80 ∨ 0xBF < s3) := by omega
  simp [h, h', h'']

theorem decode4_err (s0 : Nat) (t : GoString) (x lo hi : Nat) (hf : utf8.first s0 = x)
    (hx : x % 8 = 4) (hlt : x < 0xF0) (ha : utf8.acceptRanges (x / 16) = (lo, hi))
    (h : ∀ s1 s2 s3 X, t = s1 :: s2 :: s3 :: X →
      ¬ (lo ≤ s1 ∧ s1 ≤ hi ∧ 0x80 ≤ s2 ∧ s2 ≤ 0xBF ∧ 0x80 ≤ s3 ∧ s3 ≤ 0xBF)) :
    utf8.DecodeRuneInString (s0 :: t) = (utf8.RuneError, 1) := by
  rw [decode_eq s0 t x hf hlt, ha, hx]
  rcases t with _ | ⟨s1, _ | ⟨s2, _ | ⟨s3, X⟩⟩⟩
  · simp
  · simp
  · by_cases h1 : s1 < lo ∨ hi < s1
    · simp [h1]
    · by_cases h2 : s2 < 0x80 ∨ 0xBF < s2
      · simp [h2]
      · simp [h1, h2]
  · have := h s1 s2 s3 X rfl
    by_cases h1 : s1 < lo ∨ hi < s1
    · simp [h1]
    · by_cases h2 : s2 < 0x80 ∨ 0xBF < s2
      · simp [h2]
      · have h3 : s3 < 0x80 ∨ 0xBF < s3 := by omega
        simp [h3]

theorem decode_xx (s0 : Nat) (t : GoString) (hf : utf8.first s0 = 0xF1) :
    utf8.DecodeRuneInString (s0 :: t) = (utf8.RuneError, 1) := by
  simp [utf8.DecodeRuneInString, hf]

theorem encode2 (s0 s1 : Nat) (h0 : 0xC2 ≤ s0) (h0' : s0 < 0xE0) (h1 : 0x80 ≤ s1) (h1' : s1 ≤ 0xBF) :
    utf8.EncodeRune ((s0 % 32) * 64 + s1 % 64) = [s0, s1] ∧
    128 ≤ (s0 % 32) * 64 + s1 % 64 ∧ utf8.ValidRune ((s0 % 32) * 64 + s1 % 64) = true := by
  refine ⟨?_, by omega, ?_⟩
  · unfold utf8.EncodeRune utf8.rune1Max utf8.rune2Max
    rw [if_neg (by omega), if_pos (by omega)]
    have e1 : 0xC0 + ((s0 % 32) * 64 + s1 % 64) / 64 = s0 := by omega
    have e2 : 0x80 + ((s0 % 32) * 64 + s1 % 64) % 64 = s1 := by omega
    rw [e1, e2]
  · unfold utf8.ValidRune utf8.surrogateMin
    rw [if_pos (by omega)]

theorem encode3 (s0 s1 s2 : Nat) (h0 : 0xE0 ≤ s0) (h0' : s0 < 0xF0) (h1 : 0x80 ≤ s1)
    (h1' : s1 ≤ 0xBF) (ha : s0 = 0xE0 → 0xA0 ≤ s1) (hb : s0 = 0xED → s1 ≤ 0x9F)
    (h2 : 0x80 ≤ s2) (h2' : s2 ≤ 0xBF) :
    utf8.EncodeRune ((s0 % 16) * 4096 + (s1 % 64) * 64 + s2 % 64) = [s0, s1, s2] ∧
    128 ≤ (s0 % 16) * 4096 + (s1 % 64) * 64 + s2 % 64 ∧
    utf8.ValidRune ((s0 % 16) * 4096 + (s1 % 64) * 64 + s2 % 64) = true := by
  have hs : (s0 % 16) * 4096 + (s1 % 64) * 64 + s2 % 64 < 0xD800 ∨
      0xDFFF < (s0 % 16) * 4096 + (s1 % 64) * 64 + s2 % 64 := by omega
  refine ⟨?_, by omega, ?_⟩
  · unfold utf8.EncodeRune utf8.rune1Max utf8.rune2Max utf8.rune3Max utf8.MaxRune
      utf8.surrogateMin utf8.surrogateMax
    rw [if_neg (by omega), if_neg (by omega), if_neg (by omega), if_pos (by omega)]
    have e1 : 0xE0 + ((s0 % 16) * 4096 + (s1 % 64) * 64 + s2 % 64) / 4096 = s0 := by omega
    have e2 : 0x80 + ((s0 % 16) * 4096 + (s1 % 64) * 64 + s2 % 64) / 64 % 64 = s1 := by omega
    have e3 : 0x80 + ((s0 % 16) * 4096 + (s1 % 64) * 64 + s2 % 64) % 64 = s2 := by omega
    rw [e1, e2, e3]
  · unfold utf8.ValidRune utf8.surrogateMin utf8.surrogateMax utf8.MaxRune
    rcases hs with hs | hs
    · rw [if_pos (by omega)]
    · rw [if_neg (by omega), if_pos (by omega)]

theorem encode4 (s0 s1 s2 s3 : Nat) (h0 : 0xF0 ≤ s0) (h0' : s0 ≤ 0xF4) (h1 : 0x80 ≤ s1)
    (h1' : s1 ≤ 0xBF) (ha : s0 = 0xF0 → 0x90 ≤ s1) (hb : s0 = 0xF4 → s1 ≤ 0x8F)
    (h2 : 0x80 ≤ s2) (h2' : s2 ≤ 0xBF) (h3 : 0x80 ≤ s3) (h3' : s3 ≤ 0xBF) :
    utf8.EncodeRune ((s0 % 8) * 262144 + (s1 % 64) * 4096 + (s2 % 64) * 64 + s3 % 64) =
      [s0, s1, s2, s3] ∧
    0x10000 ≤ (s0 % 8) * 262144 + (s1 % 64) * 4096 + (s2 % 64) * 64 + s3 % 64 ∧
    (s0 % 8) * 262144 + (s1 % 64) * 4096 + (s2 % 64) * 64 + s3 % 64 ≤ 0x10FFFF ∧
    utf8.ValidRune ((s0 % 8) * 262144 + (s1 % 64) * 4096 + (s2 % 64) * 64 + s3 % 64) = true := by
  refine ⟨?_, by omega, by omega, ?_⟩
  · unfold utf8.EncodeRune utf8.rune1Max utf8.rune2Max utf8.rune3Max utf8.MaxRune
      utf8.surrogateMin utf8.surrogateMax
    rw [if_neg (by omega), if_neg (by omega), if_neg (by omega), if_neg (by omega)]
    have e1 : 0xF0 + ((s0 % 8) * 262144 + (s1 % 64) * 4096 + (s2 % 64) * 64 + s3 % 64) / 262144 =
        s0 := by omega
    have e2 : 0x80 + ((s0 % 8) * 262144 + (s1 % 64) * 4096 + (s2 % 64) * 64 + s3 % 64) / 4096 % 64 =
        s1 := by omega
    have e3 : 0x80 + ((s0 % 8) * 262144 + (s1 % 64) * 4096 + (s2 % 64) * 64 + s3 % 64) / 64 % 64 =
        s2 := by omega
    have e4 : 0x80 + ((s0 % 8) * 262144 + (s1 % 64) * 4096 + (s2 % 64) * 64 + s3 % 64) % 64 =
        s3 := by omega
    rw [e1, e2, e3, e4]
  · unfold utf8.ValidRune utf8.surrogateMin utf8.surrogateMax utf8.MaxRune
    rw [if_neg (by omega), if_pos (by omega)]

/-- A non-ASCII first byte either starts an invalid encoding, or starts the
encoding of a valid rune that `EncodeRune` writes back. -/
theorem decode_chunk (s0 : Nat) (t : GoString) (h0 : 128 ≤ s0) (h1 : s0 < 256) :
    utf8.DecodeRuneInString (s0 :: t) = (utf8.RuneError, 1) ∨
    ∃ r tail rest, s0 :: t = (s0 :: tail) ++ rest ∧ tail ≠ [] ∧ 128 ≤ r ∧
      utf8.ValidRune r = true ∧ utf8.EncodeRune r = s0 :: tail ∧ (∀ b ∈ tail, 128 ≤ b) ∧
      ∀ X, utf8.DecodeRuneInString ((s0 :: tail) ++ X) = (r, (s0 :: tail).length) := by
  by_cases hxx : s0 < 0xC2 ∨ 0xF4 < s0
  · exact Or.inl (decode_xx s0 t (first_xx s0 h0 hxx))
  by_cases h2 : s0 < 0xE0
  · -- two bytes
    have hf := first_s1 s0 (by omega) h2
    by_cases hg : ∃ s1 X, t = s1 :: X ∧ 0x80 ≤ s1 ∧ s1 ≤ 0xBF
    · obtain ⟨s1, X, rfl, ha, hb⟩ := hg
      have hha : 128 ≤ s1 := ha
      obtain ⟨e1, e2, e3⟩ := encode2 s0 s1 (by omega) h2 ha hb
      exact Or.inr ⟨_, [s1], X, rfl, by simp, e2, e3, e1, by simpa using (hha),
        fun Y => decode2 s0 s1 Y hf ha hb⟩
    · exact Or.inl (decode2_err s0 t hf (fun s1 X e hc => hg ⟨s1, X, e, hc⟩))
  by_cases h3 : s0 < 0xF0
  · -- three bytes
    obtain ⟨x, lo, hi, hf, hx, hlt, ha, hlo, hhi⟩ : ∃ x lo hi, utf8.first s0 = x ∧ x % 8 = 3 ∧
        x < 0xF0 ∧ utf8.acceptRanges (x / 16) = (lo, hi) ∧
        (∀ s1, lo ≤ s1 → 0x80 ≤ s1 ∧ (s0 = 0xE0 → 0xA0 ≤ s1)) ∧
        (∀ s1, s1 ≤ hi → s1 ≤ 0xBF ∧ (s0 = 0xED → s1 ≤ 0x9F)) := by
      by_cases e : s0 = 0xE0
      · subst e
        exact ⟨0x13, 0xA0, 0xBF, first_s2, by decide, by decide, by decide,
          fun s1 h => by omega, fun s1 h => by omega⟩
      by_cases e' : s0 = 0xED
      · subst e'
        exact ⟨0x23, 0x80, 0x9F, first_s4, by decide, by decide, by decide,
          fun s1 h => by omega, fun s1 h => by omega⟩
      exact ⟨0x03, 0x80, 0xBF, first_s3 s0 (by omega) h3 e', by decide, by decide, by decide,
        fun s1 h => by omega, fun s1 h => by omega⟩
    by_cases hg : ∃ s1 s2 X, t = s1 :: s2 :: X ∧ lo ≤ s1 ∧ s1 ≤ hi ∧ 0x80 ≤ s2 ∧ s2 ≤ 0xBF
    · obtain ⟨s1, s2, X, rfl, ha1, hb1, ha2, hb2⟩ := hg
      obtain ⟨e1, e2, e3⟩ := encode3 s0 s1 s2 (by omega) h3 (hlo s1 ha1).1 (hhi s1 hb1).1
        (hlo s1 ha1).2 (hhi s1 hb1).2 ha2 hb2
      have g1 : 128 ≤ s1 := (hlo s1 ha1).1
      have g2 : 128 ≤ s2 := ha2
      exact Or.inr ⟨_, [s1, s2], X, rfl, by simp, e2, e3, e1, by simp [g1, g2],
        fun Y => decode3 s0 s1 s2 Y x lo hi hf hx hlt ha ha1 hb1 ha2 hb2⟩
    · exact Or.inl (decode3_err s0 t x lo hi hf hx hlt ha
        (fun s1 s2 X e hc => hg ⟨s1, s2, X, e, hc⟩))
  · -- four bytes
    obtain ⟨x, lo, hi, hf, hx, hlt, ha, hlo, hhi⟩ : ∃ x lo hi, utf8.first s0 = x ∧ x % 8 = 4 ∧
        x < 0xF0 ∧ utf8.acceptRanges (x / 16) = (lo, hi) ∧
        (∀ s1, lo ≤ s1 → 0x80 ≤ s1 ∧ (s0 = 0xF0 → 0x90 ≤ s1)) ∧
        (∀ s1, s1 ≤ hi → s1 ≤ 0xBF ∧ (s0 = 0xF4 → s1 ≤ 0x8F)) := by
      by_cases e : s0 = 0xF0
      · subst e
        exact ⟨0x34, 0x90, 0xBF, first_s5, by decide, by decide, by decide,
          fun s1 h => by omega, fun s1 h => by omega⟩
      by_cases e' : s0 = 0xF4
      · subst e'
        exact ⟨0x44, 0x80, 0x8F, first_s7, by decide, by decide, by decide,
          fun s1 h => by omega, fun s1 h => by omega⟩
      exact ⟨0x04, 0x80, 0xBF, first_s6 s0 (by omega) (by omega), by decide, by decide,
        by decide, fun s1 h => by omega, fun s1 h => by omega⟩
    by_cases hg : ∃ s1 s2 s3 X, t = s1 :: s2 :: s3 :: X ∧ lo ≤ s1 ∧ s1 ≤ hi ∧ 0x80 ≤ s2 ∧
        s2 ≤ 0xBF ∧ 0x80 ≤ s3 ∧ s3 ≤ 0xBF
    · obtain ⟨s1, s2, s3, X, rfl, ha1, hb1, ha2, hb2, ha3, hb3⟩ := hg
      obtain ⟨e1, e2, _, e3⟩ := encode4 s0 s1 s2 s3 (by omega) (by omega) (hlo s1 ha1).1
        (hhi s1 hb1).1 (hlo s1 ha1).2 (hhi s1 hb1).2 ha2 hb2 ha3 hb3
      have g1 : 128 ≤ s1 := (hlo s1 ha1).1
      have g2 : 128 ≤ s2 := ha2
      have g3 : 128 ≤ s3 := ha3
      exact Or.inr ⟨_, [s1, s2, s3], X, rfl, by simp, by omega, e3, e1, by simp [g1, g2, g3],
        fun Y => decode4 s0 s1 s2 s3 Y x lo hi hf hx hlt ha ha1 hb1 ha2 hb2 ha3 hb3⟩
    · exact Or.inl (decode4_err s0 t x lo hi hf hx hlt ha
        (fun s1 s2 s3 X e hc => hg ⟨s1, s2, s3, X, e, hc⟩))

theorem appendEscapedRune_buf (T : Nat → Bool) (buf : GoString) (r q : Nat) :
    strconv.appendEscapedRune T buf r q = buf ++ strconv.appendEscapedRune T [] r q := by
  unfold strconv.appendEscapedRune
  simp only [List.nil_append, apply_ite (fun x => buf ++ x), List.append_assoc]

theorem IsPrint_low (T : Nat → Bool) (r : Nat) (h : r < 256) :
    strconv.IsPrint T r = strconv.IsPrint (fun _ => false) r := by
  have h' : r ≤ 0xFF := by omega
  simp only [strconv.IsPrint, h', if_true]

theorem appendEscapedRune_low (T : Nat → Bool) (r : Nat) (h : r < 256) :
    strconv.appendEscapedRune T [] r 34 = strconv.appendEscapedRune (fun _ => false) [] r 34 := by
  unfold strconv.appendEscapedRune
  rw [IsPrint_low T r h]

theorem unquoteChar_ascii (s0 : Nat) (h : s0 < 128) (X : GoString) :
    strconv.UnquoteChar (strconv.appendEscapedRune (fun _ => false) [] s0 34 ++ X) 34 =
      some (s0, false, X) := by
  interval_cases s0 <;> rfl

theorem ascii_facts : ∀ s0 < 128,
    (strconv.appendEscapedRune (fun _ => false) [] s0 34).head? ≠ some 34 ∧
    (strconv.appendEscapedRune (fun _ => false) [] s0 34).head? ≠ some 10 ∧
    strconv.appendEscapedRune (fun _ => false) [] s0 34 ≠ [] ∧
    ((strconv.appendEscapedRune (fun _ => false) [] s0 34 = [s0] ∧ s0 ≠ 92 ∧ s0 ≠ 34) ∨
     (strconv.appendEscapedRune (fun _ => false) [] s0 34).head? = some 92) := by
  decide

theorem unquoteChar_hexbyte (s0 : Nat) (h0 : 128 ≤ s0) (h : s0 < 256) (X : GoString) :
    strconv.UnquoteChar
        (str "\\x" ++ [strconv.lowerhex (s0 % 256 / 16), strconv.lowerhex (s0 % 16)] ++ X) 34 =
      some (s0, false, X) := by
  interval_cases s0 <;> rfl

theorem unhex_lowerhex : ∀ n < 16, strconv.unhex (strconv.lowerhex n) = some n := by
  decide

theorem readHex4 (r : Nat) (h : r < 65536) (X : GoString) :
    strconv.readHex 4
        ([strconv.lowerhex (r / 4096 % 16), strconv.lowerhex (r / 256 % 16),
          strconv.lowerhex (r / 16 % 16), strconv.lowerhex (r % 16)] ++ X) 0 = some (r, X) := by
  simp only [strconv.readHex, List.cons_append, List.nil_append,
    unhex_lowerhex _ (Nat.mod_lt _ (by decide : 16 > 0))]
  have : (((0 * 16 + r / 4096 % 16) * 16 + r / 256 % 16) * 16 + r / 16 % 16) * 16 + r % 16 = r := by
    omega
  rw [this]
  rfl

theorem readHex8 (r : Nat) (h : r < 4294967296) (X : GoString) :
    strconv.readHex 8
        ([strconv.lowerhex (r / 268435456 % 16), strconv.lowerhex (r / 16777216 % 16),
          strconv.lowerhex (r / 1048576 % 16), strconv.lowerhex (r / 65536 % 16),
          strconv.lowerhex (r / 4096 % 16), strconv.lowerhex (r / 256 % 16),
          strconv.lowerhex (r / 16 % 16), strconv.lowerhex (r % 16)] ++ X) 0 = some (r, X) := by
  simp only [strconv.readHex, List.cons_append, List.nil_append,
    unhex_lowerhex _ (Nat.mod_lt _ (by decide : 16 > 0))]
  have : (((((((0 * 16 + r / 268435456 % 16) * 16 + r / 16777216 % 16) * 16 +
      r / 1048576 % 16) * 16 + r / 65536 % 16) * 16 + r / 4096 % 16) * 16 + r / 256 % 16) * 16 +
      r / 16 % 16) * 16 + r % 16 = r := by
    omega
  rw [this]
  rfl

theorem unquoteChar_u (r : Nat) (hv : utf8.ValidRune r = true) (h : r < 65536) (X : GoString) :
    strconv.UnquoteChar
        (str "\\u" ++ [strconv.lowerhex (r / 4096 % 16), strconv.lowerhex (r / 256 % 16),
          strconv.lowerhex (r / 16 % 16), strconv.lowerhex (r % 16)] ++ X) 34 =
      some (r, true, X) := by
  have hr := readHex4 r h X
  simp only [List.cons_append, List.nil_append] at hr
  show strconv.UnquoteChar (92 :: 117 :: _) 34 = _
  simp [strconv.UnquoteChar, utf8.RuneSelf, hr, hv]

theorem unquoteChar_U (r : Nat) (hv : utf8.ValidRune r = true) (h : r < 4294967296)
    (X : GoString) :
    strconv.UnquoteChar
        (str "\\U" ++ [strconv.lowerhex (r / 268435456 % 16), strconv.lowerhex (r / 16777216 % 16),
          strconv.lowerhex (r / 1048576 % 16), strconv.lowerhex (r / 65536 % 16),
          strconv.lowerhex (r / 4096 % 16), strconv.lowerhex (r / 256 % 16),
          strconv.lowerhex (r / 16 % 16), strconv.lowerhex (r % 16)] ++ X) 34 =
      some (r, true, X) := by
  have hr := readHex8 r h X
  simp only [List.cons_append, List.nil_append] at hr
  show strconv.UnquoteChar (92 :: 85 :: _) 34 = _
  simp [strconv.UnquoteChar, utf8.RuneSelf, hr, hv]

theorem validRune_le (r : Nat) (hv : utf8.ValidRune r = true) : r ≤ 0x10FFFF := by
  unfold utf8.ValidRune utf8.surrogateMin utf8.surrogateMax utf8.MaxRune at hv
  split_ifs at hv <;> omega

theorem appendEscapedRune_high (T : Nat → Bool) (r : Nat) (hr : 128 ≤ r)
    (hv : utf8.ValidRune r = true) (hp : ¬ strconv.IsPrint T r = true) :
    strconv.appendEscapedRune T [] r 34 =
      if r < 0x10000 then
        str "\\u" ++ [strconv.lowerhex (r / 4096 % 16), strconv.lowerhex (r / 256 % 16),
          strconv.lowerhex (r / 16 % 16), strconv.lowerhex (r % 16)]
      else
        str "\\U" ++ [strconv.lowerhex (r / 268435456 % 16), strconv.lowerhex (r / 16777216 % 16),
          strconv.lowerhex (r / 1048576 % 16), strconv.lowerhex (r / 65536 % 16),
          strconv.lowerhex (r / 4096 % 16), strconv.lowerhex (r / 256 % 16),
          strconv.lowerhex (r / 16 % 16), strconv.lowerhex (r % 16)] := by
  unfold strconv.appendEscapedRune
  rw [if_neg (by omega), if_neg hp, if_neg (by omega), if_neg (by omega), if_neg (by omega),
    if_neg (by omega), if_neg (by omega), if_neg (by omega), if_neg (by omega),
    if_neg (by omega)]
  simp only [hv, if_true, List.nil_append]

/-- What one iteration of the loop of `Quote` writes for the first character
of a string, and how `UnquoteChar` reads it back. -/
theorem chunk_spec (T : Nat → Bool) (s0 : Nat) (t : GoString) (h1 : s0 < 256) :
    ∃ chunk rest out r mb,
      s0 :: t = chunk ++ rest ∧ chunk ≠ [] ∧
      (∀ n buf, strconv.quoteLoop T 34 (n + 1) (s0 :: t) buf =
        strconv.quoteLoop T 34 n rest (buf ++ out)) ∧
      (∀ X, strconv.UnquoteChar (out ++ X) 34 = some (r, mb, X)) ∧
      (if r < utf8.RuneSelf ∨ ¬ mb = true then [r % 256] else utf8.EncodeRune r) = chunk ∧
      out ≠ [] ∧ out.head? ≠ some 34 ∧ out.head? ≠ some 10 ∧
      ((out = chunk ∧ 92 ∉ out ∧ 34 ∉ out) ∨ out.head? = some 92) := by
  by_cases hA : s0 < 128
  · -- a single ASCII byte
    obtain ⟨f1, f2, f3, f4⟩ := ascii_facts s0 hA
    rw [← appendEscapedRune_low T s0 h1] at f1 f2 f3 f4
    refine ⟨[s0], t, strconv.appendEscapedRune T [] s0 34, s0, false, rfl, by simp, ?_, ?_, ?_,
      f3, f1, f2, ?_⟩
    · intro n buf
      have hd : ¬ (s0 ≥ utf8.RuneSelf) := by simp [utf8.RuneSelf]; omega
      simp only [strconv.quoteLoop, hd, if_false, List.drop_succ_cons, List.drop_zero]
      rw [if_neg (by simp [utf8.RuneError]; omega), appendEscapedRune_buf]
    · intro X
      rw [appendEscapedRune_low T s0 h1]
      exact unquoteChar_ascii s0 hA X
    · have : s0 % 256 = s0 := Nat.mod_eq_of_lt h1
      simp [this]
    · rcases f4 with ⟨e, a, b⟩ | e
      · left
        rw [e]
        simp [Ne.symm a, Ne.symm b]
      · exact Or.inr e
  · have h0 : 128 ≤ s0 := by omega
    have hd : s0 ≥ utf8.RuneSelf := by simp [utf8.RuneSelf]; omega
    rcases decode_chunk s0 t h0 h1 with herr | ⟨r, tail, rest, hs, htail, hr, hv, henc, hgt, hdec⟩
    · -- an invalid byte
      refine ⟨[s0], t, str "\\x" ++ [strconv.lowerhex (s0 % 256 / 16), strconv.lowerhex (s0 % 16)],
        s0, false, rfl, by simp, ?_, ?_, ?_, by simp [str], by simp [str], by simp [str],
        Or.inr (by simp [str])⟩
      · intro n buf
        simp only [strconv.quoteLoop, hd, if_true, herr, List.drop_succ_cons, List.drop_zero,
          List.append_assoc]
        rw [if_pos ⟨trivial, trivial⟩]
      · intro X
        exact unquoteChar_hexbyte s0 h0 h1 X
      · have : s0 % 256 = s0 := Nat.mod_eq_of_lt h1
        simp [this]
    · -- a valid multi-byte encoding
      have hd' := hdec rest
      rw [← hs] at hd'
      have hlen : 2 ≤ (s0 :: tail).length := by
        cases tail with
        | nil => exact absurd rfl htail
        | cons a b => simp
      have he : ¬ ((s0 :: tail).length = 1 ∧ r = utf8.RuneError) := by omega
      have hstep : ∀ n buf, strconv.quoteLoop T 34 (n + 1) (s0 :: t) buf =
          strconv.quoteLoop T 34 n rest (buf ++ strconv.appendEscapedRune T [] r 34) := by
        intro n buf
        have hdrop : List.drop (s0 :: tail).length (s0 :: t) = rest := by
          rw [hs]
          exact List.drop_left _ _
        simp only [strconv.quoteLoop, hd, if_true, hd', he, if_false, hdrop]
        rw [appendEscapedRune_buf]
      have hmb : (if r < utf8.RuneSelf ∨ ¬ true = true then [r % 256] else utf8.EncodeRune r) =
          s0 :: tail := by
        have : ¬ (r < utf8.RuneSelf ∨ ¬ true = true) := by simp [utf8.RuneSelf]; omega
        rw [if_neg this, henc]
      have hq : ¬ (r = 34 ∨ r = 92) := by omega
      by_cases hp : strconv.IsPrint T r = true
      · -- printed as it is
        have hout : strconv.appendEscapedRune T [] r 34 = s0 :: tail := by
          simp only [strconv.appendEscapedRune, hq, if_false, hp, if_true, List.nil_append, henc]
        have hge : ∀ b ∈ s0 :: tail, 128 ≤ b := by
          intro b hb
          rcases List.mem_cons.mp hb with e | e
          · omega
          · exact hgt b e
        refine ⟨s0 :: tail, rest, strconv.appendEscapedRune T [] r 34, r, true, hs, by simp,
          hstep, ?_, hmb, by simp [hout], ?_, ?_, Or.inl ⟨hout, ?_, ?_⟩⟩
        · intro X
          rw [hout]
          have hdX := hdec X
          simp only [List.cons_append] at hdX
          have : List.drop (s0 :: tail).length (s0 :: (tail ++ X)) = X := by
            rw [← List.cons_append]
            exact List.drop_left _ _
          simp only [List.cons_append, strconv.UnquoteChar, hd, if_true, hdX, this]
          rw [if_neg (by rintro ⟨h, _⟩; omega)]
        · rw [hout]; simp; omega
        · rw [hout]; simp; omega
        · rw [hout]
          intro hm
          have := hge 92 hm
          omega
        · rw [hout]
          intro hm
          have := hge 34 hm
          omega
      · -- written as a unicode escape
        have hout := appendEscapedRune_high T r hr hv hp
        have hle := validRune_le r hv
        have hmb' : (if r < utf8.RuneSelf ∨ ¬ true = true then [r % 256] else utf8.EncodeRune r) =
            s0 :: tail := hmb
        by_cases hlt : r < 0x10000
        · rw [if_pos hlt] at hout
          refine ⟨s0 :: tail, rest, strconv.appendEscapedRune T [] r 34, r, true, hs, by simp,
            hstep, ?_, hmb', by simp [hout, str], by simp [hout, str], by simp [hout, str],
            Or.inr (by simp [hout, str])⟩
          intro X
          rw [hout]
          exact unquoteChar_u r hv hlt X
        · rw [if_neg hlt] at hout
          refine ⟨s0 :: tail, rest, strconv.appendEscapedRune T [] r 34, r, true, hs, by simp,
            hstep, ?_, hmb', by simp [hout, str], by simp [hout, str], by simp [hout, str],
            Or.inr (by simp [hout, str])⟩
          intro X
          rw [hout]
          exact unquoteChar_U r hv (by omega) X

theorem quoteLoop_buf (T : Nat → Bool) (n : Nat) (s buf : GoString) :
    strconv.quoteLoop T 34 n s buf = buf ++ strconv.quoteLoop T 34 n s [] := by
  induction n generalizing s buf with
  | zero => simp [strconv.quoteLoop]
  | succ n ih =>
    cases s with
    | nil => simp [strconv.quoteLoop]
    | cons s0 t =>
      simp only [strconv.quoteLoop]
      generalize (if s0 ≥ utf8.RuneSelf then utf8.DecodeRuneInString (s0 :: t) else (s0, 1)) = d
      split_ifs
      · rw [ih, ih _ ([] ++ _ ++ _)]
        simp
      · rw [ih, ih _ (strconv.appendEscapedRune T [] _ 34), appendEscapedRune_buf]
        simp

theorem quoteLoop_step (T : Nat → Bool) (s0 : Nat) (t : GoString) (h1 : s0 < 256) :
    ∃ chunk rest out r mb,
      s0 :: t = chunk ++ rest ∧ chunk ≠ [] ∧
      (∀ n, strconv.quoteLoop T 34 (n + 1) (s0 :: t) [] =
        out ++ strconv.quoteLoop T 34 n rest []) ∧
      (∀ X, strconv.UnquoteChar (out ++ X) 34 = some (r, mb, X)) ∧
      (if r < utf8.RuneSelf ∨ ¬ mb = true then [r % 256] else utf8.EncodeRune r) = chunk ∧
      out ≠ [] ∧ out.head? ≠ some 34 ∧ out.head? ≠ some 10 ∧
      ((out = chunk ∧ 92 ∉ out ∧ 34 ∉ out) ∨ out.head? = some 92) := by
  obtain ⟨chunk, rest, out, r, mb, a1, a2, a3, a4, a5, a6, a7, a8, a9⟩ := chunk_spec T s0 t h1
  refine ⟨chunk, rest, out, r, mb, a1, a2, ?_, a4, a5, a6, a7, a8, a9⟩
  intro n
  rw [a3 n [], quoteLoop_buf]
  simp

theorem unquoteLoop_quoteLoop (T : Nat → Bool) (n : Nat) (s : GoString)
    (hb : ∀ b ∈ s, b < 256) (hn : s.length ≤ n) (buf : GoString) (m : Nat)
    (hm : (strconv.quoteLoop T 34 n s []).length < m) :
    strconv.unquoteLoop 34 m (strconv.quoteLoop T 34 n s [] ++ [34]) buf =
      some (buf ++ s, [34]) := by
  induction n generalizing s buf m with
  | zero =>
    have : s = [] := List.length_eq_zero.mp (by omega)
    subst this
    cases m with
    | zero => omega
    | succ m => simp [strconv.quoteLoop, strconv.unquoteLoop]
  | succ n ih =>
    cases s with
    | nil =>
      cases m with
      | zero => omega
      | succ m => simp [strconv.quoteLoop, strconv.unquoteLoop]
    | cons s0 t =>
      obtain ⟨chunk, rest, out, r, mb, a1, a2, a3, a4, a5, a6, a7, a8, _⟩ :=
        quoteLoop_step T s0 t (hb s0 (by simp))
      rw [a3 n] at hm ⊢
      have hrest : rest.length ≤ n := by
        have := congrArg List.length a1
        have hc : 0 < chunk.length := List.length_pos.mpr a2
        simp only [List.length_cons, List.length_append] at this
        simp only [List.length_cons] at hn
        omega
      have hbr : ∀ b ∈ rest, b < 256 := fun b h => hb b (by rw [a1]; simp [h])
      cases m with
      | zero => omega
      | succ m =>
        obtain ⟨c, out', rfl⟩ : ∃ c out', out = c :: out' := by
          cases out with
          | nil => exact absurd rfl a6
          | cons c o => exact ⟨c, o, rfl⟩
        have hc34 : c ≠ 34 := fun e => a7 (by simp [e])
        have hc10 : c ≠ 10 := fun e => a8 (by simp [e])
        have hu := a4 (strconv.quoteLoop T 34 n rest [] ++ [34])
        simp only [List.cons_append, List.append_assoc] at hu ⊢
        have hm' : (strconv.quoteLoop T 34 n rest []).length < m := by
          simp only [List.length_cons, List.length_append] at hm
          omega
        have h39 : ¬ ((34 : Nat) = 39) := by decide
        simp only [strconv.unquoteLoop, hc34, if_false, hu, hc10, h39]
        rw [← apply_ite (fun x => buf ++ x), a5, ih rest hbr hrest _ m hm', a1]
        simp

theorem index_append_of_not_mem (a b : GoString) (c : Nat) (h : c ∉ a) :
    strconv.index (a ++ b) c = (strconv.index b c).map (· + a.length) := by
  induction a with
  | nil => simp
  | cons x a ih =>
    have hx : x ≠ c := fun e => h (by simp [e])
    have ha : c ∉ a := fun e => h (by simp [e])
    rw [List.cons_append]
    simp only [strconv.index, hx, if_false]
    rw [ih ha]
    cases strconv.index b c <;> simp [Nat.add_assoc]

theorem index_isSome (l : GoString) (c : Nat) (h : c ∈ l) : ∃ e, strconv.index l c = some e := by
  induction l with
  | nil => simp at h
  | cons x l ih =>
    by_cases hx : x = c
    · exact ⟨0, by simp [strconv.index, hx]⟩
    · rcases List.mem_cons.mp h with e | e
      · exact absurd e.symm hx
      · obtain ⟨k, hk⟩ := ih e
        exact ⟨k + 1, by simp [strconv.index, hx, hk]⟩

theorem not_mem_of_contains (l : GoString) (c : Nat) (h : ¬ strconv.contains l c = true) :
    c ∉ l := by
  intro hm
  obtain ⟨e, he⟩ := index_isSome l c hm
  simp [strconv.contains, he] at h

theorem quoteLoop_verbatim (T : Nat → Bool) (n : Nat) (s : GoString)
    (hb : ∀ b ∈ s, b < 256) (hn : s.length ≤ n) (e : Nat)
    (he : strconv.index (strconv.quoteLoop T 34 n s [] ++ [34]) 34 = some e)
    (h92 : 92 ∉ (strconv.quoteLoop T 34 n s [] ++ [34]).take (e + 1)) :
    e = (strconv.quoteLoop T 34 n s []).length ∧ strconv.quoteLoop T 34 n s [] = s := by
  induction n generalizing s e with
  | zero =>
    have : s = [] := List.length_eq_zero.mp (by omega)
    subst this
    simp [strconv.quoteLoop, strconv.index] at he ⊢
    omega
  | succ n ih =>
    cases s with
    | nil =>
      simp [strconv.quoteLoop, strconv.index] at he ⊢
      omega
    | cons s0 t =>
      obtain ⟨chunk, rest, out, r, mb, a1, a2, a3, _, _, a6, _, _, a9⟩ :=
        quoteLoop_step T s0 t (hb s0 (by simp))
      rw [a3 n] at he h92 ⊢
      have hrest : rest.length ≤ n := by
        have := congrArg List.length a1
        have hc : 0 < chunk.length := List.length_pos.mpr a2
        simp only [List.length_cons, List.length_append] at this
        simp only [List.length_cons] at hn
        omega
      have hbr : ∀ b ∈ rest, b < 256 := fun b h => hb b (by rw [a1]; simp [h])
      rcases a9 with ⟨hoc, ho92, ho34⟩ | hesc
      · rw [List.append_assoc, index_append_of_not_mem _ _ _ ho34] at he
        obtain ⟨e', he', rfl⟩ := Option.map_eq_some'.mp he
        have htake : List.take (e' + out.length + 1)
            (out ++ strconv.quoteLoop T 34 n rest [] ++ [34]) =
            out ++ List.take (e' + 1) (strconv.quoteLoop T 34 n rest [] ++ [34]) := by
          rw [List.append_assoc, show e' + out.length + 1 = out.length + (e' + 1) by omega,
            List.take_append]
        rw [htake] at h92
        have h92' : 92 ∉ List.take (e' + 1) (strconv.quoteLoop T 34 n rest [] ++ [34]) :=
          fun h => h92 (List.mem_append_right _ h)
        obtain ⟨i1, i2⟩ := ih rest hbr hrest e' he' h92'
        refine ⟨by simp only [List.length_append]; omega, ?_⟩
        rw [i2, a1, hoc]
      · exfalso
        apply h92
        obtain ⟨o', rfl⟩ : ∃ o', out = 92 :: o' := by
          cases out with
          | nil => exact absurd rfl a6
          | cons c o =>
            simp only [List.head?_cons, Option.some.injEq] at hesc
            exact ⟨o, by rw [hesc]⟩
        simp

/-- `strconv.Unquote` undoes `strconv.Quote` on every string of bytes. -/
theorem Unquote_Quote (T : Nat → Bool) (s : GoString) (hb : ∀ b ∈ s, b < 256) :
    strconv.Unquote (strconv.Quote T s) = some s := by
  have hq : strconv.Quote T s = 34 :: (strconv.quoteLoop T 34 s.length s [] ++ [34]) := by
    unfold strconv.Quote
    rw [quoteLoop_buf]
    rfl
  rw [hq]
  generalize hQ : strconv.quoteLoop T 34 s.length s [] = Q
  have hloop := unquoteLoop_quoteLoop T s.length s hb le_rfl [] (Q.length + 2) (by rw [hQ]; omega)
  rw [hQ] at hloop
  obtain ⟨e, he⟩ := index_isSome (Q ++ [34]) 34 (by simp)
  have hverb := quoteLoop_verbatim T s.length s hb le_rfl e (by rw [hQ]; exact he)
  rw [hQ] at hverb
  have hlen : ¬ ((34 :: (Q ++ [34])).length < 2) := by simp
  have hlen' : (34 :: (Q ++ [34])).length = Q.length + 2 := by simp
  have h96 : ¬ ((34 : Nat) = 96) := by decide
  have hu : strconv.unquote (34 :: (Q ++ [34])) = (s, [], false) := by
    simp only [strconv.unquote, hlen, if_false, List.headD_cons, List.drop_succ_cons,
      List.drop_zero, he, hlen', hloop, h96, true_or, if_true, List.nil_append]
    split_ifs with hc hv
    all_goals try rfl
    all_goals try omega
    all_goals try contradiction
    obtain ⟨i1, i2⟩ := hverb (by
      have := not_mem_of_contains _ _ hv.1
      intro hm
      apply this
      rw [List.take_succ_cons]
      exact List.mem_cons_of_mem _ hm)
    subst i2
    subst i1
    have t1 : List.take (Q.length + 2 - 1) (34 :: (Q ++ [34])) = 34 :: Q := by
      simp [List.take_append_of_le_length]
    have t2 : List.drop (Q.length + 1) (Q ++ [34]) = [] := List.drop_of_length_le (by simp)
    rw [t1, t2]
    rfl
  simp [strconv.Unquote, hu]

/-! ### ast.SortImports -/

theorem dedup_sublist (l : List ast.ImportSpec) : (ast.dedup l).Sublist l := by
  induction l with
  | nil => exact List.Sublist.slnil
  | cons a l ih =>
    cases l with
    | nil => exact List.Sublist.refl _
    | cons b rest =>
      unfold ast.dedup
      split
      · exact List.Sublist.cons a ih
      · exact List.Sublist.cons₂ a ih

theorem dedup_key (l : List ast.ImportSpec) (s : ast.ImportSpec) (hs : s ∈ l) :
    ∃ t ∈ ast.dedup l, ast.importPath t = ast.importPath s ∧
      ast.importName t = ast.importName s := by
  induction l generalizing s with
  | nil => simp at hs
  | cons a l ih =>
    cases l with
    | nil =>
      rw [List.mem_singleton] at hs
      subst hs
      exact ⟨s, by simp [ast.dedup], rfl, rfl⟩
    | cons b rest =>
      unfold ast.dedup
      by_cases hc : ast.collapse a b = true
      · rw [if_pos hc]
        rcases List.mem_cons.mp hs with h | h
        · subst h
          obtain ⟨t, ht, hp, hn⟩ := ih b (by simp)
          have hk : ast.importPath b = ast.importPath s ∧
              ast.importName b = ast.importName s := by
            unfold ast.collapse at hc
            by_cases hk : ast.importPath b ≠ ast.importPath s ∨
                ast.importName b ≠ ast.importName s
            · rw [if_pos hk] at hc
              cases hc
            · push_neg at hk
              exact hk
          exact ⟨t, ht, hp.trans hk.1, hn.trans hk.2⟩
        · exact ih s h
      · rw [if_neg hc]
        rcases List.mem_cons.mp hs with h | h
        · subst h
          exact ⟨s, by simp, rfl, rfl⟩
        · obtain ⟨t, ht, hk⟩ := ih s h
          exact ⟨t, List.mem_cons_of_mem _ ht, hk⟩

theorem sortSpecs_of_length_le (run : List ast.ImportSpec) (h : run.length ≤ 1) :
    ast.sortSpecs run = run := by
  simp [ast.sortSpecs, h]

theorem sortSpecs_countP_le (q : ast.ImportSpec → Bool) (run : List ast.ImportSpec) :
    (ast.sortSpecs run).countP q ≤ run.countP q := by
  unfold ast.sortSpecs
  split
  · exact le_rfl
  · exact ((dedup_sublist _).countP_le q).trans
      (le_of_eq ((List.perm_insertionSort ast.specLE run).countP_eq q))

theorem sortSpecs_key (run : List ast.ImportSpec) (s : ast.ImportSpec) (hs : s ∈ run) :
    ∃ t ∈ ast.sortSpecs run, ast.importPath t = ast.importPath s ∧
      ast.importName t = ast.importName s := by
  unfold ast.sortSpecs
  split
  · exact ⟨s, hs, rfl, rfl⟩
  · exact dedup_key _ s ((List.perm_insertionSort ast.specLE run).mem_iff.mpr hs)

theorem sortSpecs_sorted (run : List ast.ImportSpec) :
    List.Sorted ast.specLE (ast.sortSpecs run) := by
  unfold ast.sortSpecs
  split
  · rename_i h
    cases run with
    | nil => exact List.sorted_nil
    | cons a l =>
      have : l = [] := List.length_eq_zero.mp (by simpa using h)
      subst this
      exact List.sorted_singleton a
  · exact List.Pairwise.sublist (dedup_sublist _) (List.sorted_insertionSort ast.specLE run)

theorem sortRuns_countP_le (q : ast.ImportSpec → Bool) (runs : List (List ast.ImportSpec)) :
    (runs.map ast.sortSpecs).flatten.countP q ≤ runs.flatten.countP q := by
  induction runs with
  | nil => simp
  | cons r rs ih =>
    simp only [List.map_cons, List.flatten_cons, List.countP_append]
    exact Nat.add_le_add (sortSpecs_countP_le q r) ih

theorem sortRuns_key (runs : List (List ast.ImportSpec)) (s : ast.ImportSpec)
    (hs : s ∈ runs.flatten) :
    ∃ t ∈ (runs.map ast.sortSpecs).flatten, ast.importPath t = ast.importPath s ∧
      ast.importName t = ast.importName s := by
  induction runs with
  | nil => simp at hs
  | cons r rs ih =>
    simp only [List.map_cons, List.flatten_cons, List.mem_append] at hs ⊢
    rcases hs with h | h
    · obtain ⟨t, ht, hk⟩ := sortSpecs_key r s h
      exact ⟨t, Or.inl ht, hk⟩
    · obtain ⟨t, ht, hk⟩ := ih h
      exact ⟨t, Or.inr ht, hk⟩

theorem sortDecl_countP_le (q : ast.ImportSpec → Bool) (d : ast.GenDecl) :
    (ast.sortDecl d).Specs.countP q ≤ d.Specs.countP q := by
  unfold ast.sortDecl
  split
  · exact sortRuns_countP_le q d.Runs
  · exact le_rfl

theorem sortDecl_key (d : ast.GenDecl) (s : ast.ImportSpec) (hs : s ∈ d.Specs) :
    ∃ t ∈ (ast.sortDecl d).Specs, ast.importPath t = ast.importPath s ∧
      ast.importName t = ast.importName s := by
  unfold ast.sortDecl
  split
  · exact sortRuns_key d.Runs s hs
  · exact ⟨s, hs, rfl, rfl⟩

theorem specsOf_cons (d : ast.GenDecl) (decls : List ast.GenDecl) :
    ast.specsOf (d :: decls) = d.Specs ++ ast.specsOf decls := by
  simp [ast.specsOf]

theorem sortImports_countP_le (q : ast.ImportSpec → Bool) (decls : List ast.GenDecl) :
    (ast.specsOf (decls.map ast.sortDecl)).countP q ≤ (ast.specsOf decls).countP q := by
  induction decls with
  | nil => simp [ast.specsOf]
  | cons d ds ih =>
    simp only [List.map_cons, specsOf_cons, List.countP_append]
    exact Nat.add_le_add (sortDecl_countP_le q d) ih

theorem sortImports_key (decls : List ast.GenDecl) (s : ast.ImportSpec)
    (hs : s ∈ ast.specsOf decls) :
    ∃ t ∈ ast.specsOf (decls.map ast.sortDecl), ast.importPath t = ast.importPath s ∧
      ast.importName t = ast.importName s := by
  induction decls with
  | nil => simp [ast.specsOf] at hs
  | cons d ds ih =>
    simp only [List.map_cons, specsOf_cons, List.mem_append] at hs ⊢
    rcases hs with h | h
    · obtain ⟨t, ht, hk⟩ := sortDecl_key d s h
      exact ⟨t, Or.inl ht, hk⟩
    · obtain ⟨t, ht, hk⟩ := ih h
      exact ⟨t, Or.inr ht, hk⟩

theorem sortImports_subset (decls : List ast.GenDecl) (t : ast.ImportSpec)
    (ht : t ∈ ast.specsOf (decls.map ast.sortDecl)) : t ∈ ast.specsOf decls := by
  have h1 : 0 < (ast.specsOf (decls.map ast.sortDecl)).countP (fun x => decide (x = t)) :=
    List.countP_pos_iff.mpr ⟨t, ht, by simp⟩
  obtain ⟨x, hx, hxt⟩ := List.countP_pos_iff.mp (lt_of_lt_of_le h1 (sortImports_countP_le _ decls))
  simp only [decide_eq_true_eq] at hxt
  exact hxt ▸ hx

theorem sortDecl_single (d : ast.GenDecl) (r : List ast.ImportSpec) (h : d.Runs = [r])
    (hl : d.Lparen = false → r.length ≤ 1) :
    ast.sortDecl d = { Lparen := d.Lparen, Runs := [ast.sortSpecs r] } := by
  cases d with
  | mk lp runs =>
    simp only at h hl
    subst h
    cases lp with
    | true => simp [ast.sortDecl]
    | false => simp [ast.sortDecl, sortSpecs_of_length_le r (hl rfl)]

/-! ### astutil.AddNamedImport -/

theorem insertSpec_perm (runs : List (List ast.ImportSpec)) (k : Nat) (new : ast.ImportSpec) :
    (astutil.insertSpec runs k new).flatten.Perm (runs.flatten ++ [new]) := by
  induction runs generalizing k with
  | nil => simp [astutil.insertSpec]
  | cons r rs ih =>
    unfold astutil.insertSpec
    split
    · simp only [List.flatten_cons]
      have h1 : (List.take k r ++ new :: List.drop k r).Perm (new :: r) := by
        have h0 : (List.take k r ++ new :: List.drop k r).Perm
            (new :: (List.take k r ++ List.drop k r)) := List.perm_middle
        rwa [List.take_append_drop] at h0
      exact (h1.append_right _).trans (List.perm_append_singleton new (r ++ rs.flatten)).symm
    · simp only [List.flatten_cons, List.append_assoc]
      exact (ih _).append_left r

theorem bestSpec_lt (path : GoString) (specs : List ast.ImportSpec) (j : Nat)
    (bestMatch impIndex : Int) (seen : Bool) (h : impIndex < j) :
    (astutil.bestSpec path specs j bestMatch impIndex seen).2 < (j : Int) + specs.length := by
  induction specs generalizing j bestMatch impIndex seen with
  | nil => simpa [astutil.bestSpec] using h
  | cons s specs ih =>
    unfold astutil.bestSpec
    split
    · have := ih (j + 1) (astutil.matchLen (astutil.importPath s) path) j
        (seen || astutil.isThirdParty (astutil.importPath s)) (by push_cast; omega)
      simp only [List.length_cons]
      push_cast at this ⊢
      omega
    · have := ih (j + 1) bestMatch impIndex
        (seen || astutil.isThirdParty (astutil.importPath s)) (by push_cast; omega)
      simp only [List.length_cons]
      push_cast at this ⊢
      omega

theorem addedDecls_perm {σ : Type} (L : GoLib σ) (f : ast.File σ) (path : GoString)
    (new : ast.ImportSpec) :
    (ast.specsOf (astutil.addedDecls L f path new)).Perm (ast.specsOf f.Decls ++ [new]) := by
  unfold astutil.addedDecls
  split
  · rename_i h
    simp [h, ast.specsOf, ast.GenDecl.Specs]
  · rename_i d h
    rw [h]
    split
    · simp [ast.specsOf, ast.GenDecl.Specs]
    · simpa [ast.specsOf, ast.GenDecl.Specs] using insertSpec_perm d.Runs _ new
  · exact L.mergedDecls_specs f new

theorem addedDecls_single {σ : Type} (L : GoLib σ) (f : ast.File σ) (path : GoString)
    (new : ast.ImportSpec)
    (h : f.Decls = [] ∨ ∃ d, f.Decls = [d] ∧ d.Runs.length ≤ 1 ∧
      astutil.declImports d (str "C") = false) :
    ∃ lp r, astutil.addedDecls L f path new = [{ Lparen := lp, Runs := [r] }] ∧
      (lp = false → r.length ≤ 1) := by
  unfold astutil.addedDecls
  rcases h with h | ⟨d, h, hr, hc⟩
  · rw [h]
    exact ⟨false, [new], rfl, fun _ => by simp⟩
  · rw [h]
    simp only [hc, Bool.false_eq_true, if_false]
    cases hruns : d.Runs with
    | nil =>
      refine ⟨false, [new], ?_, fun _ => by simp⟩
      simp [astutil.insertSpec]
    | cons r rs =>
      have hrs : rs = [] := by
        rw [hruns] at hr
        exact List.length_eq_zero.mp (by simpa using hr)
      subst hrs
      have hspecs : d.Specs = r := by simp [ast.GenDecl.Specs, hruns]
      have hb := bestSpec_lt path r 0 (-1) (-1) false (by omega)
      rw [hspecs]
      have hk : (if (astutil.bestSpec path r 0 (-1) (-1) false).2 ≥ 0
          then ((astutil.bestSpec path r 0 (-1) (-1) false).2 + 1).toNat else 0) ≤ r.length := by
        split <;> omega
      refine ⟨_, _, by simp only [astutil.insertSpec, if_pos hk]; rfl, ?_⟩
      intro hlp
      exact le_of_eq (by simpa using hlp)

/-! ### addImport -/

theorem sortSlice_sorted (l : List ast.ImportSpec) : List.Sorted pathLE (sortSlice l) :=
  List.sorted_insertionSort pathLE l

theorem sortSlice_perm (l : List ast.ImportSpec) : (sortSlice l).Perm l :=
  List.perm_insertionSort pathLE l

theorem imports_eq_true {σ : Type} (f : ast.File σ) (name path : GoString) :
    astutil.imports f name path = true ↔
      ∃ s ∈ f.Imports, astutil.importName s = name ∧ astutil.importPath s = path := by
  simp [astutil.imports]

theorem addImport_of_imports {σ : Type} (L : GoLib σ) (flag : GoString) (f : ast.File σ)
    (path : GoString) (h : astutil.imports f (str "_") path = true) :
    addImport L flag f path = (f, some (Err.alreadyTracking flag)) := by
  simp [addImport, astutil.AddNamedImport, h]

theorem addImport_of_not_imports {σ : Type} (L : GoLib σ) (flag : GoString) (f : ast.File σ)
    (path : GoString) (h : astutil.imports f (str "_") path = false) :
    (addImport L flag f path).2 = none ∧
    (addImport L flag f path).1.Decls =
      (astutil.addedDecls L f path (blankImport (strconv.Quote L.isPrintTable path))).map
        ast.sortDecl ∧
    (addImport L flag f path).1.Imports =
      sortSlice (ast.specsOf
        ((astutil.addedDecls L f path (blankImport (strconv.Quote L.isPrintTable path))).map
          ast.sortDecl)) := by
  have hs : str "_" ≠ [] := by decide
  simp [addImport, astutil.AddNamedImport, h, ast.SortImports, blankImport, hs]

/-- C2: when the document has a blank import (`_`, the form of every import
of a manifest) of the path, `addImport` fails with the "already tracking"
error and returns the document as it was, so `extractImports` gives the same
result as before the call. -/
theorem addImport_already_tracked {σ : Type} (L : GoLib σ) (flag : GoString) (f : ast.File σ)
    (path : GoString)
    (h : ∃ s ∈ f.Imports, s.Name = some { Name := str "_" } ∧
      strconv.Unquote s.Path.Value = some path) :
    (addImport L flag f path).2 = some (Err.alreadyTracking flag) ∧
    (addImport L flag f path).1 = f ∧
    (extractImports L (addImport L flag f path).1).2 = (extractImports L f).2 := by
  have hi : astutil.imports f (str "_") path = true := by
    obtain ⟨s, hs, hn, hp⟩ := h
    exact (imports_eq_true f _ _).mpr
      ⟨s, hs, by simp [astutil.importName, hn], by simp [astutil.importPath, hp]⟩
  rw [addImport_of_imports L flag f path hi]
  exact ⟨rfl, rfl, rfl⟩

/-- C2 on a document that has a blank import of the path. -/
theorem addImport_already_tracked_witness :
    (∃ s ∈ exTracked.Imports, s.Name = some { Name := str "_" } ∧
      strconv.Unquote s.Path.Value = some (str "example.com/a/tool")) ∧
    (addImport exLib (str "example.com/a/tool") exTracked (str "example.com/a/tool")).2 =
      some (Err.alreadyTracking (str "example.com/a/tool")) ∧
    (addImport exLib (str "example.com/a/tool") exTracked (str "example.com/a/tool")).1 =
      exTracked ∧
    (extractImports exLib
        (addImport exLib (str "example.com/a/tool") exTracked (str "example.com/a/tool")).1).2 =
      (extractImports exLib exTracked).2 :=
  ⟨⟨_, List.mem_singleton.mpr rfl, rfl, by decide⟩,
   addImport_already_tracked exLib (str "example.com/a/tool") exTracked
     (str "example.com/a/tool") ⟨_, List.mem_singleton.mpr rfl, rfl, by decide⟩⟩

theorem importPath_of_unquote (s : ast.ImportSpec) (p : GoString)
    (h : strconv.Unquote s.Path.Value = some p) : ast.importPath s = p := by
  simp [ast.importPath, h]

theorem unquote_of_isSome (s : ast.ImportSpec) (h : (strconv.Unquote s.Path.Value).isSome) :
    strconv.Unquote s.Path.Value = some (ast.importPath s) := by
  obtain ⟨p, hp⟩ := Option.isSome_iff_exists.mp h
  rw [importPath_of_unquote s p hp, hp]

theorem mem_paths (specs : List ast.ImportSpec)
    (h : ∀ s ∈ specs, (strconv.Unquote s.Path.Value).isSome) (p : GoString) :
    p ∈ specs.filterMap (fun s => strconv.Unquote s.Path.Value) ↔
      ∃ s ∈ specs, ast.importPath s = p := by
  rw [List.mem_filterMap]
  constructor
  · rintro ⟨s, hs, hp⟩
    exact ⟨s, hs, importPath_of_unquote s p hp⟩
  · rintro ⟨s, hs, hp⟩
    exact ⟨s, hs, by rw [unquote_of_isSome s (h s hs), hp]⟩

theorem countP_paths (specs : List ast.ImportSpec) (path : GoString) :
    (specs.filterMap (fun s => strconv.Unquote s.Path.Value)).countP
        (fun p => decide (p = path)) =
      specs.countP (fun s => decide (strconv.Unquote s.Path.Value = some path)) := by
  induction specs with
  | nil => rfl
  | cons s specs ih =>
    cases hs : strconv.Unquote s.Path.Value with
    | none => simp [List.filterMap_cons, hs, List.countP_cons, ih]
    | some p => simp [List.filterMap_cons, hs, List.countP_cons, ih]

theorem specLE_importPath (a b : ast.ImportSpec) (h : ast.specLE a b) :
    ast.importPath a ≤ ast.importPath b := by
  rcases h with h | ⟨h, _⟩
  · exact le_of_lt h
  · exact le_of_eq h

theorem sorted_paths (specs : List ast.ImportSpec) (h : List.Sorted ast.specLE specs) :
    List.Sorted (· ≤ ·) (specs.filterMap (fun s => strconv.Unquote s.Path.Value)) := by
  refine List.Pairwise.filterMap _ ?_ h
  intro a a' haa b hb b' hb'
  rw [← importPath_of_unquote a b hb, ← importPath_of_unquote a' b' hb']
  exact specLE_importPath a a' haa

/-- C3, the claim as stated fails: the import block of `exGroupsManifest` has
two groups, `example.com/z/tool` and, after a blank line,
`example.com/a/tool`.  `addImport` of `example.com/b/tool`, which the manifest
does not track, succeeds; `astutil.AddNamedImport` puts the new spec after the
first spec, in its group, and `ast.SortImports` sorts each group by itself, so
`extractImports` then returns `example.com/b/tool`, `example.com/z/tool`,
`example.com/a/tool`.  The same holds for `exRawManifest`, which has the last
path as a raw string literal, so that also the order of the quoted literals,
in which `sort.Slice` leaves `f.Imports`, is not the order of the paths. -/
theorem addImport_then_extractImports_not_ascending :
    parse exLib exOS exGroupsManifest = some exGroups ∧
    (extractImports exLib exGroups).2 =
      Except.ok [str "example.com/z/tool", str "example.com/a/tool"] ∧
    str "example.com/b/tool" ∉ [str "example.com/z/tool", str "example.com/a/tool"] ∧
    (addImport exLib (str "example.com/b/tool") exGroups (str "example.com/b/tool")).2 = none ∧
    (extractImports exLib
        (addImport exLib (str "example.com/b/tool") exGroups (str "example.com/b/tool")).1).2 =
      Except.ok [str "example.com/b/tool", str "example.com/z/tool", str "example.com/a/tool"] ∧
    parse exLib exOS exRawManifest = some exRawGroups ∧
    (extractImports exLib exRawGroups).2 =
      Except.ok [str "example.com/z/tool", str "example.com/a/tool"] ∧
    (addImport exLib (str "example.com/b/tool") exRawGroups (str "example.com/b/tool")).2 =
      none ∧
    (extractImports exLib
        (addImport exLib (str "example.com/b/tool") exRawGroups
          (str "example.com/b/tool")).1).2 =
      Except.ok [str "example.com/b/tool", str "example.com/z/tool", str "example.com/a/tool"] ∧
    ¬ List.Sorted (· ≤ ·)
      [str "example.com/b/tool", str "example.com/z/tool", str "example.com/a/tool"] :=
  ⟨rfl, rfl, by decide, by decide, rfl, rfl, rfl, by decide, rfl, by decide⟩

/-- C3, amended: for a parsed document whose path literals are all well
formed (as in every file the parser accepts), from which `extractImports`
returns `old`, and a path that is not in `old`, `addImport` succeeds and
`extractImports` on the resulting document returns a sequence that holds the
path exactly once, holds every path of `old`, and holds no other path.  The
sequence is in ascending order when the document has no import declaration,
or a single one that does not import "C" and whose specs stand on successive
lines (one group). -/
theorem addImport_then_extractImports {σ : Type} (L : GoLib σ) (flag : GoString)
    (decls : List ast.GenDecl) (syn : σ) (path : GoString) (old : List GoString)
    (hlit : ∀ s ∈ ast.specsOf decls, (strconv.Unquote s.Path.Value).isSome)
    (hold : (extractImports L (ast.File.ofDecls decls syn)).2 = Except.ok old)
    (hnew : path ∉ old) (hbytes : ∀ b ∈ path, b < 256) :
    (addImport L flag (ast.File.ofDecls decls syn) path).2 = none ∧
    ∃ l, (extractImports L (addImport L flag (ast.File.ofDecls decls syn) path).1).2 =
        Except.ok l ∧
      l.countP (fun p => decide (p = path)) = 1 ∧
      (∀ p ∈ old, p ∈ l) ∧
      (∀ p ∈ l, p ∈ old ∨ p = path) ∧
      ((decls = [] ∨ ∃ d, decls = [d] ∧ d.Runs.length ≤ 1 ∧
          astutil.declImports d (str "C") = false) →
        List.Sorted (· ≤ ·) l) := by
  have hq := Unquote_Quote L.isPrintTable path hbytes
  have hnewPath : ast.importPath (blankImport (strconv.Quote L.isPrintTable path)) = path :=
    importPath_of_unquote _ _ (by simpa [blankImport] using hq)
  obtain ⟨hsome0, hl0⟩ := (extractImports_ok_iff L (ast.File.ofDecls decls syn) old).mp hold
  have hS0 : (ast.SortImports L (ast.File.ofDecls decls syn)).Imports =
      ast.specsOf (decls.map ast.sortDecl) := rfl
  rw [hS0] at hsome0 hl0
  have hold_iff : ∀ p, p ∈ old ↔ ∃ s ∈ ast.specsOf decls, ast.importPath s = p := by
    intro p
    rw [hl0, mem_paths _ hsome0]
    constructor
    · rintro ⟨s, hs, hp⟩
      exact ⟨s, sortImports_subset decls s hs, hp⟩
    · rintro ⟨s, hs, hp⟩
      obtain ⟨t, ht, hk, _⟩ := sortImports_key decls s hs
      exact ⟨t, ht, hk.trans hp⟩
  have hfresh : ∀ s ∈ ast.specsOf decls, ast.importPath s ≠ path := by
    intro s hs e
    exact hnew ((hold_iff path).mpr ⟨s, hs, e⟩)
  have hi : astutil.imports (ast.File.ofDecls decls syn) (str "_") path = false := by
    cases hi : astutil.imports (ast.File.ofDecls decls syn) (str "_") path with
    | false => rfl
    | true =>
      exfalso
      obtain ⟨s, hs, _, hp⟩ := (imports_eq_true _ _ _).mp hi
      exact hfresh s hs hp
  obtain ⟨h2, hD, _⟩ := addImport_of_not_imports L flag (ast.File.ofDecls decls syn) path hi
  have hperm := addedDecls_perm L (ast.File.ofDecls decls syn) path
    (blankImport (strconv.Quote L.isPrintTable path))
  have hS3 : (ast.SortImports L (addImport L flag (ast.File.ofDecls decls syn) path).1).Imports =
      ast.specsOf (((astutil.addedDecls L (ast.File.ofDecls decls syn) path
        (blankImport (strconv.Quote L.isPrintTable path))).map ast.sortDecl).map
          ast.sortDecl) := by
    rw [← hD]
    rfl
  have hmem1 : ∀ t, t ∈ ast.specsOf (astutil.addedDecls L (ast.File.ofDecls decls syn) path
      (blankImport (strconv.Quote L.isPrintTable path))) ↔
      t ∈ ast.specsOf decls ∨ t = blankImport (strconv.Quote L.isPrintTable path) := by
    intro t
    rw [hperm.mem_iff]
    simp [ast.File.ofDecls]
  have hsub3 : ∀ t ∈ (ast.SortImports L
      (addImport L flag (ast.File.ofDecls decls syn) path).1).Imports,
      t ∈ ast.specsOf decls ∨ t = blankImport (strconv.Quote L.isPrintTable path) := by
    intro t ht
    rw [hS3] at ht
    exact (hmem1 t).mp (sortImports_subset _ t (sortImports_subset _ t ht))
  have hkey3 : ∀ s, (s ∈ ast.specsOf decls ∨
      s = blankImport (strconv.Quote L.isPrintTable path)) →
      ∃ t ∈ (ast.SortImports L (addImport L flag (ast.File.ofDecls decls syn) path).1).Imports,
        ast.importPath t = ast.importPath s := by
    intro s hs
    obtain ⟨t, ht, hk, _⟩ := sortImports_key _ s ((hmem1 s).mpr hs)
    obtain ⟨u, hu, hk', _⟩ := sortImports_key _ t ht
    rw [hS3]
    exact ⟨u, hu, hk'.trans hk⟩
  have hwf3 : ∀ t ∈ (ast.SortImports L
      (addImport L flag (ast.File.ofDecls decls syn) path).1).Imports,
      (strconv.Unquote t.Path.Value).isSome := by
    intro t ht
    rcases hsub3 t ht with h | h
    · exact hlit t h
    · rw [h]
      simp [blankImport, hq]
  have hl_iff : ∀ p, p ∈ (ast.SortImports L
      (addImport L flag (ast.File.ofDecls decls syn) path).1).Imports.filterMap
        (fun s => strconv.Unquote s.Path.Value) ↔ p ∈ old ∨ p = path := by
    intro p
    rw [mem_paths _ hwf3, hold_iff]
    constructor
    · rintro ⟨t, ht, hp⟩
      rcases hsub3 t ht with h | h
      · exact Or.inl ⟨t, h, hp⟩
      · right
        rw [← hp, h, hnewPath]
    · rintro (⟨s, hs, hp⟩ | hp)
      · obtain ⟨t, ht, hk⟩ := hkey3 s (Or.inl hs)
        exact ⟨t, ht, hk.trans hp⟩
      · obtain ⟨t, ht, hk⟩ := hkey3 _ (Or.inr rfl)
        exact ⟨t, ht, by rw [hk, hnewPath, hp]⟩
  refine ⟨h2, _, extractImports_ok L _ hwf3, ?_, fun p hp => (hl_iff p).mpr (Or.inl hp),
    fun p hp => (hl_iff p).mp hp, ?_⟩
  · apply le_antisymm
    · rw [countP_paths, hS3]
      refine (sortImports_countP_le _ _).trans ((sortImports_countP_le _ _).trans ?_)
      rw [hperm.countP_eq, List.countP_append]
      have hz : List.countP (fun s => decide (strconv.Unquote s.Path.Value = some path))
          (ast.specsOf (ast.File.ofDecls decls syn).Decls) = 0 := by
        rw [List.countP_eq_zero]
        intro s hs
        simp only [decide_eq_true_eq]
        intro e
        exact hfresh s hs (importPath_of_unquote s path e)
      rw [hz]
      simp [List.countP_cons, blankImport, hq]
    · exact List.countP_pos_iff.mpr ⟨path, (hl_iff path).mpr (Or.inr rfl), by simp⟩
  · intro hone
    obtain ⟨lp, r, hadd, hlp⟩ := addedDecls_single L (ast.File.ofDecls decls syn) path
      (blankImport (strconv.Quote L.isPrintTable path)) hone
    rw [hS3, hadd]
    have h1 : ast.sortDecl { Lparen := lp, Runs := [r] } =
        { Lparen := lp, Runs := [ast.sortSpecs r] } := sortDecl_single _ r rfl hlp
    have h2 : ast.sortDecl { Lparen := lp, Runs := [ast.sortSpecs r] } =
        { Lparen := lp, Runs := [ast.sortSpecs (ast.sortSpecs r)] } :=
      sortDecl_single _ _ rfl (fun e => by
        rw [sortSpecs_of_length_le r (hlp e)]
        exact hlp e)
    simp only [List.map_cons, List.map_nil, h1, h2]
    have h3 : ast.specsOf [({ Lparen := lp, Runs := [ast.sortSpecs (ast.sortSpecs r)] } :
        ast.GenDecl)] = ast.sortSpecs (ast.sortSpecs r) := by
      simp [ast.specsOf, ast.GenDecl.Specs]
    rw [h3]
    exact sorted_paths _ (sortSpecs_sorted _)

/-- C3, amended, on the parsed example manifest and a third tool. -/
theorem addImport_then_extractImports_witness :
    (∀ s ∈ ast.specsOf exDecls, (strconv.Unquote s.Path.Value).isSome) ∧
    (extractImports exLib (ast.File.ofDecls exDecls ())).2 =
      Except.ok [str "example.com/a/tool", str "example.com/b/tool"] ∧
    str "example.com/c/tool" ∉ [str "example.com/a/tool", str "example.com/b/tool"] ∧
    (∀ b ∈ str "example.com/c/tool", b < 256) ∧
    (addImport exLib (str "example.com/c/tool") (ast.File.ofDecls exDecls ())
      (str "example.com/c/tool")).2 = none ∧
    (extractImports exLib
        (addImport exLib (str "example.com/c/tool") (ast.File.ofDecls exDecls ())
          (str "example.com/c/tool")).1).2 =
      Except.ok [str "example.com/a/tool", str "example.com/b/tool", str "example.com/c/tool"] :=
  ⟨by decide, rfl, by decide, by decide,
   (addImport_then_extractImports exLib (str "example.com/c/tool") exDecls ()
      (str "example.com/c/tool") [str "example.com/a/tool", str "example.com/b/tool"]
      (by decide) rfl (by decide) (by decide)).1,
   rfl⟩

/-! ### main -/

theorem main_eq {σ ι : Type} (L : GoLib σ) (O : OS ι) (args : CmdLine) (w : World ι)
    (hp : (flagParse args).2 = none) (hr : (resolve O (flagParse args).1).2 = none) :
    main L O args w = mainResolved L O (resolve O (flagParse args).1).1 w := by
  simp [main, hp, hr]

theorem resolve_flagInit {ι : Type} (O : OS ι) (flags : Flags) :
    (resolve O flags).1.flagInit = flags.flagInit := by
  unfold resolve
  split
  · split <;> rfl
  · rfl

theorem resolve_flagToolToAdd {ι : Type} (O : OS ι) (flags : Flags) :
    (resolve O flags).1.flagToolToAdd = flags.flagToolToAdd := by
  unfold resolve
  split
  · split <;> rfl
  · rfl

theorem main_init {σ ι : Type} (L : GoLib σ) (O : OS ι) (args : CmdLine) (w : World ι)
    (hp : (flagParse args).2 = none) (hr : (resolve O (flagParse args).1).2 = none)
    (hinit : args.init = true) :
    main L O args w = initMode O (manifestPath O args) w := by
  have h : (resolve O (flagParse args).1).1.flagInit = true := by
    rw [resolve_flagInit]
    simpa [flagParse] using hinit
  rw [main_eq L O args w hp hr]
  simp [mainResolved, h, manifestPath]

theorem main_run {σ ι : Type} (L : GoLib σ) (O : OS ι) (args : CmdLine) (w : World ι)
    (data : GoString) (f : ast.File σ)
    (hp : (flagParse args).2 = none) (hr : (resolve O (flagParse args).1).2 = none)
    (hinit : args.init = false)
    (hfile : w.files (manifestPath O args) = some data) (hopen : O.fault Sys.Open = false)
    (hparse : parse L O data = some f) (hclose : O.fault Sys.CloseRead = false) :
    main L O args w = runMode L O (resolve O (flagParse args).1).1 f w := by
  have h : (resolve O (flagParse args).1).1.flagInit = false := by
    rw [resolve_flagInit]
    simpa [flagParse] using hinit
  rw [main_eq L O args w hp hr]
  simp only [manifestPath] at hfile
  simp [mainResolved, h, hfile, hopen, hparse, hclose]

theorem store_invocations {ι : Type} (w : World ι) (p c : GoString) :
    invocations (w.store p c).trace = invocations w.trace := by
  simp [World.store, invocations, List.filterMap_append, Event.invocation]

theorem store_toolchain {ι : Type} (w : World ι) (p c : GoString) :
    (w.store p c).toolchain = w.toolchain := rfl

theorem store_files_self {ι : Type} (w : World ι) (p c : GoString) :
    (w.store p c).files p = some c := by
  simp [World.store, setFile]

theorem store_files_other {ι : Type} (w : World ι) (p c q : GoString) (h : q ≠ p) :
    (w.store p c).files q = w.files q := by
  simp [World.store, setFile, h]

theorem initMode_quiet {ι : Type} (O : OS ι) (pathname : GoString) (w : World ι) :
    invocations (initMode O pathname w).1.trace = invocations w.trace ∧
    (initMode O pathname w).1.toolchain = w.toolchain := by
  unfold initMode
  split
  · exact ⟨rfl, rfl⟩
  · split
    · simp [store_invocations, store_toolchain]
    · split <;> simp [store_invocations, store_toolchain]

theorem initMode_files {ι : Type} (O : OS ι) (pathname : GoString) (w : World ι) :
    ((initMode O pathname w).1.files pathname = w.files pathname ∨
     (initMode O pathname w).1.files pathname = some (O.torn boilerplate) ∨
     (initMode O pathname w).1.files pathname = some boilerplate) ∧
    ∀ q, q ≠ pathname → (initMode O pathname w).1.files q = w.files q := by
  unfold initMode
  split
  · exact ⟨Or.inl rfl, fun _ _ => rfl⟩
  · split
    · exact ⟨Or.inr (Or.inl (store_files_self _ _ _)), fun q hq => by
        rw [store_files_other _ _ _ _ hq, store_files_other _ _ _ _ hq]⟩
    · split <;>
        exact ⟨Or.inr (Or.inr (store_files_self _ _ _)), fun q hq => by
          rw [store_files_other _ _ _ _ hq, store_files_other _ _ _ _ hq]⟩

theorem writeTools_quiet {σ ι : Type} (L : GoLib σ) (O : OS ι) (f : ast.File σ)
    (pathname : GoString) (w : World ι) :
    invocations (writeTools L O f pathname w).1.trace = invocations w.trace ∧
    (writeTools L O f pathname w).1.toolchain = w.toolchain := by
  unfold writeTools
  split
  · exact ⟨rfl, rfl⟩
  · split
    · exact ⟨rfl, rfl⟩
    · split
      · simp [store_invocations, store_toolchain]
      · split
        · simp [store_invocations, store_toolchain]
        · split <;> simp [store_invocations, store_toolchain]

theorem writeTools_ok {σ ι : Type} (L : GoLib σ) (O : OS ι) (f : ast.File σ)
    (pathname : GoString) (w : World ι) (h : (writeTools L O f pathname w).2 = none) :
    ∃ text, L.formatNode f = some text ∧
      (writeTools L O f pathname w).1 = (w.store pathname []).store pathname text := by
  cases hF : L.Fprint f with
  | none => simp [writeTools, hF] at h
  | some t =>
    cases hO : O.fault Sys.OpenTrunc with
    | true => simp [writeTools, hF, hO] at h
    | false =>
      cases hN : L.formatNode f with
      | none => simp [writeTools, hF, hO, hN] at h
      | some text =>
        cases hW : O.fault Sys.Write with
        | true => simp [writeTools, hF, hO, hN, hW] at h
        | false =>
          cases hC : O.fault Sys.CloseWritten with
          | true => simp [writeTools, hF, hO, hN, hW, hC] at h
          | false => exact ⟨text, rfl, by simp [writeTools, hF, hO, hN, hW, hC]⟩

theorem runMode_add {σ ι : Type} (L : GoLib σ) (O : OS ι) (flags : Flags) (f : ast.File σ)
    (w : World ι) (hadd : flags.flagToolToAdd ≠ []) :
    ((addImport L flags.flagToolToAdd f flags.flagToolToAdd).2 = none →
      (writeTools L O (addImport L flags.flagToolToAdd f flags.flagToolToAdd).1
          (pathnameFlag.String flags.flagToolsFilePathname) w).2 = none →
      runMode L O flags f w =
        exitOf (installTools O [flags.flagToolToAdd]
          (writeTools L O (addImport L flags.flagToolToAdd f flags.flagToolToAdd).1
            (pathnameFlag.String flags.flagToolsFilePathname) w).1)) ∧
    (((addImport L flags.flagToolToAdd f flags.flagToolToAdd).2 ≠ none ∨
      (writeTools L O (addImport L flags.flagToolToAdd f flags.flagToolToAdd).1
          (pathnameFlag.String flags.flagToolsFilePathname) w).2 ≠ none) →
      invocations (runMode L O flags f w).1.trace = invocations w.trace ∧
      (runMode L O flags f w).1.toolchain = w.toolchain ∧
      ∃ e, (runMode L O flags f w).2 = Exit.fatal e) := by
  cases ha : (addImport L flags.flagToolToAdd f flags.flagToolToAdd).2 with
  | some e => simp [runMode, hadd, ha]
  | none =>
    cases hw : (writeTools L O (addImport L flags.flagToolToAdd f flags.flagToolToAdd).1
        (pathnameFlag.String flags.flagToolsFilePathname) w).2 with
    | some e =>
      have hq := writeTools_quiet L O (addImport L flags.flagToolToAdd f flags.flagToolToAdd).1
        (pathnameFlag.String flags.flagToolsFilePathname) w
      simp [runMode, hadd, ha, hw, hq.1, hq.2]
    | none => simp [runMode, hadd, ha, hw]

theorem runMode_default {σ ι : Type} (L : GoLib σ) (O : OS ι) (flags : Flags) (f : ast.File σ)
    (w : World ι) (hadd : flags.flagToolToAdd = []) :
    (∀ toolpaths, (extractImports L f).2 = Except.ok toolpaths →
      runMode L O flags f w = exitOf (installTools O toolpaths w)) ∧
    (∀ e, (extractImports L f).2 = Except.error e → runMode L O flags f w = (w, Exit.fatal e)) := by
  constructor
  · intro toolpaths h
    simp [runMode, hadd, h]
  · intro e h
    simp [runMode, hadd, h]

theorem main_abort {σ ι : Type} (L : GoLib σ) (O : OS ι) (args : CmdLine) (w : World ι)
    (hp : (flagParse args).2 = none) (hr : (resolve O (flagParse args).1).2 = none)
    (hinit : args.init = false)
    (h : w.files (manifestPath O args) = none ∨ O.fault Sys.Open = true ∨
      (∃ data, w.files (manifestPath O args) = some data ∧ parse L O data = none) ∨
      O.fault Sys.CloseRead = true) :
    ∃ e, main L O args w = (w, Exit.fatal e) := by
  have hi : (resolve O (flagParse args).1).1.flagInit = false := by
    rw [resolve_flagInit]
    simpa [flagParse] using hinit
  rw [main_eq L O args w hp hr]
  simp only [manifestPath] at h
  cases hfile : w.files (pathnameFlag.String (resolve O (flagParse args).1).1.flagToolsFilePathname) with
  | none => exact ⟨Err.cannotOpen, by simp [mainResolved, hi, hfile]⟩
  | some data =>
    cases hopen : O.fault Sys.Open with
    | true => exact ⟨Err.cannotOpen, by simp [mainResolved, hi, hfile, hopen]⟩
    | false =>
      cases hparse : parse L O data with
      | none => exact ⟨Err.cannotParse, by simp [mainResolved, hi, hfile, hopen, hparse]⟩
      | some f =>
        cases hclose : O.fault Sys.CloseRead with
        | true => exact ⟨Err.closeRead, by simp [mainResolved, hi, hfile, hopen, hparse, hclose]⟩
        | false =>
          exfalso
          rcases h with h | h | ⟨d, h1, h2⟩ | h
          · simp [hfile] at h
          · simp [hopen] at h
          · rw [hfile] at h1
            injection h1 with h1
            rw [← h1, hparse] at h2
            simp at h2
          · simp [hclose] at h

/-- C9: in init mode, when a file already exists at the manifest path, `main`
fails with the error of opening the file and leaves the world, so the file's
contents, unchanged; when no file exists there and creating, writing and
closing it meet no other system error, `main` ends normally, the file holds
exactly the boilerplate, and no other file is changed. -/
theorem init_mode_exclusive_create {σ ι : Type} (L : GoLib σ) (O : OS ι) (args : CmdLine)
    (w : World ι)
    (hp : (flagParse args).2 = none) (hr : (resolve O (flagParse args).1).2 = none)
    (hinit : args.init = true) :
    (∀ content, w.files (manifestPath O args) = some content →
      main L O args w = (w, Exit.fatal Err.cannotOpen)) ∧
    (w.files (manifestPath O args) = none → O.fault Sys.Create = false →
      O.fault Sys.WriteString = false → O.fault Sys.CloseCreated = false →
      (main L O args w).2 = Exit.ok ∧
      (main L O args w).1.files (manifestPath O args) =
        some (str "// +build toolman\n//go:generate go run github.com/execjosh/toolman\n\npackage toolman\n") ∧
      ∀ q, q ≠ manifestPath O args → (main L O args w).1.files q = w.files q) := by
  rw [main_init L O args w hp hr hinit]
  constructor
  · intro content hc
    simp [initMode, hc]
  · intro hnone hc hw hcl
    refine ⟨by simp [initMode, hnone, hc, hw, hcl], ?_, ?_⟩
    · simp [initMode, hnone, hc, hw, hcl, store_files_self, boilerplate]
    · intro q hq
      simp [initMode, hnone, hc, hw, hcl, store_files_other _ _ _ _ hq]

/-- C9 on a world where the manifest exists and on a world without files. -/
theorem init_mode_exclusive_create_witness :
    (flagParse { f := none, init := true, add := none }).2 = none ∧
    (resolve exOS (flagParse { f := none, init := true, add := none }).1).2 = none ∧
    exWorld.files (manifestPath exOS { f := none, init := true, add := none }) =
      some exManifest ∧
    main exLib exOS { f := none, init := true, add := none } exWorld =
      (exWorld, Exit.fatal Err.cannotOpen) ∧
    emptyWorld.files (manifestPath exOS { f := none, init := true, add := none }) = none ∧
    (main exLib exOS { f := none, init := true, add := none } emptyWorld).2 = Exit.ok ∧
    (main exLib exOS { f := none, init := true, add := none } emptyWorld).1.files
        (manifestPath exOS { f := none, init := true, add := none }) =
      some (str "// +build toolman\n//go:generate go run github.com/execjosh/toolman\n\npackage toolman\n") :=
  ⟨rfl, rfl, by decide,
   (init_mode_exclusive_create exLib exOS { f := none, init := true, add := none } exWorld
      rfl rfl rfl).1
     exManifest (by decide),
   rfl,
   ((init_mode_exclusive_create exLib exOS { f := none, init := true, add := none } emptyWorld
      rfl rfl rfl).2 rfl rfl rfl rfl).1,
   ((init_mode_exclusive_create exLib exOS { f := none, init := true, add := none } emptyWorld
      rfl rfl rfl).2 rfl rfl rfl rfl).2.1⟩

theorem flagToolToAdd_eq {ι : Type} (O : OS ι) (args : CmdLine) :
    (resolve O (flagParse args).1).1.flagToolToAdd = args.add.getD [] := by
  rw [resolve_flagToolToAdd]
  rfl

theorem exitOf_fst {ι : Type} (r : World ι × Option Err) : (exitOf r).1 = r.1 := by
  unfold exitOf
  split <;> rfl

theorem invocations_installEvents (l : List (GoString × Bool)) :
    invocations (installEvents l) = l := by
  induction l with
  | nil => rfl
  | cons p l ih =>
    simp only [invocations, installEvents, List.flatMap_cons, List.cons_append,
      List.nil_append, List.filterMap_cons, Event.invocation] at ih ⊢
    rw [ih]

theorem installTools_invocations {ι : Type} (O : OS ι) (tools : List GoString) (w : World ι) :
    invocations (installTools O tools w).1.trace =
      invocations w.trace ++ runUntilFailure O w.toolchain tools := by
  rw [installTools_trace]
  simp only [invocations, List.filterMap_append]
  exact congrArg _ (invocations_installEvents _)

theorem initMode_exists {ι : Type} (O : OS ι) (pathname : GoString) (w : World ι)
    (h : (w.files pathname).isSome = true) :
    initMode O pathname w = (w, Exit.fatal Err.cannotOpen) := by
  simp [initMode, h]

theorem initMode_fresh {ι : Type} (O : OS ι) (pathname : GoString) (w : World ι)
    (h : w.files pathname = none) (hc : O.fault Sys.Create = false)
    (hw : O.fault Sys.WriteString = false) (hcl : O.fault Sys.CloseCreated = false) :
    (initMode O pathname w).2 = Exit.ok ∧
    (initMode O pathname w).1.trace =
      w.trace ++ [Event.stored pathname [], Event.stored pathname boilerplate] ∧
    (initMode O pathname w).1.files pathname = some boilerplate := by
  simp [initMode, h, hc, hw, hcl, World.store, setFile]

/-- C7: the modes of `main` have the precedence init, add, default.  With
`-init` (with or without `-add`) `main` invokes no installer, leaves the
toolchain and every other file alone, and leaves in the manifest file what was
there or the boilerplate (or what a failed write of it leaves): when the file
exists `main` fails and changes nothing, and when it does not exist and no
system call fails, `main` creates it, stores the boilerplate in it and ends
normally.  Without `-init`, once the manifest is read and parsed: with a
non-empty `-add` path, after `addImport` and `writeTools` succeeded, the
installer invocations of `main` are exactly the one for that path; without it,
they are exactly those of a run over the sequence `extractImports` returns,
in order, up to the first that fails, and no file is changed.  In no other
case is an installer invoked. -/
theorem main_mode_precedence {σ ι : Type} (L : GoLib σ) (O : OS ι) (args : CmdLine)
    (w : World ι)
    (hp : (flagParse args).2 = none) (hr : (resolve O (flagParse args).1).2 = none) :
    (args.init = true →
      invocations (main L O args w).1.trace = invocations w.trace ∧
      (main L O args w).1.toolchain = w.toolchain ∧
      (∀ q, q ≠ manifestPath O args → (main L O args w).1.files q = w.files q) ∧
      ((main L O args w).1.files (manifestPath O args) = w.files (manifestPath O args) ∨
       (main L O args w).1.files (manifestPath O args) = some (O.torn boilerplate) ∨
       (main L O args w).1.files (manifestPath O args) = some boilerplate) ∧
      ((w.files (manifestPath O args)).isSome = true →
        main L O args w = (w, Exit.fatal Err.cannotOpen)) ∧
      (w.files (manifestPath O args) = none → O.fault Sys.Create = false →
        O.fault Sys.WriteString = false → O.fault Sys.CloseCreated = false →
        (main L O args w).2 = Exit.ok ∧
        (main L O args w).1.trace =
          w.trace ++ [Event.stored (manifestPath O args) [],
            Event.stored (manifestPath O args) boilerplate] ∧
        (main L O args w).1.files (manifestPath O args) = some boilerplate)) ∧
    (args.init = false →
      ∀ data f, w.files (manifestPath O args) = some data → O.fault Sys.Open = false →
        parse L O data = some f → O.fault Sys.CloseRead = false →
        (args.add.getD [] ≠ [] →
          (addImport L (args.add.getD []) f (args.add.getD [])).2 = none →
          (writeTools L O (addImport L (args.add.getD []) f (args.add.getD [])).1
              (manifestPath O args) w).2 = none →
          invocations (main L O args w).1.trace =
            invocations w.trace ++
              [(args.add.getD [], (O.goInstall w.toolchain (args.add.getD [])).2)]) ∧
        (args.add.getD [] = [] →
          ∀ toolpaths, (extractImports L f).2 = Except.ok toolpaths →
            invocations (main L O args w).1.trace =
              invocations w.trace ++ runUntilFailure O w.toolchain toolpaths ∧
            (main L O args w).1.files = w.files)) ∧
    (invocations (main L O args w).1.trace ≠ invocations w.trace →
      args.init = false ∧
      ∃ data f, w.files (manifestPath O args) = some data ∧ parse L O data = some f ∧
        ((args.add.getD [] ≠ [] ∧
          (addImport L (args.add.getD []) f (args.add.getD [])).2 = none ∧
          (writeTools L O (addImport L (args.add.getD []) f (args.add.getD [])).1
              (manifestPath O args) w).2 = none) ∨
         (args.add.getD [] = [] ∧
          ∃ toolpaths, (extractImports L f).2 = Except.ok toolpaths))) := by
  refine ⟨fun hinit => ?_, fun hinit data f hfile hopen hparse hclose => ?_, fun hinv => ?_⟩
  · rw [main_init L O args w hp hr hinit]
    exact ⟨(initMode_quiet O _ w).1, (initMode_quiet O _ w).2, (initMode_files O _ w).2,
      (initMode_files O _ w).1, initMode_exists O _ w, initMode_fresh O _ w⟩
  · rw [main_run L O args w data f hp hr hinit hfile hopen hparse hclose]
    constructor
    · intro hadd ha hw
      have hadd' : (resolve O (flagParse args).1).1.flagToolToAdd ≠ [] := by
        rw [flagToolToAdd_eq]
        exact hadd
      have := (runMode_add L O (resolve O (flagParse args).1).1 f w hadd').1
      rw [flagToolToAdd_eq] at this
      have hq := writeTools_quiet L O (addImport L (args.add.getD []) f (args.add.getD [])).1
        (manifestPath O args) w
      rw [this ha hw, exitOf_fst, installTools_invocations]
      simp only [manifestPath] at hq ⊢
      rw [hq.1, hq.2]
      simp [runUntilFailure]
    · intro hadd toolpaths hx
      have hadd' : (resolve O (flagParse args).1).1.flagToolToAdd = [] := by
        rw [flagToolToAdd_eq]
        exact hadd
      rw [(runMode_default L O (resolve O (flagParse args).1).1 f w hadd').1 toolpaths hx,
        exitOf_fst]
      exact ⟨installTools_invocations O toolpaths w, installTools_files O toolpaths w⟩
  · cases hinit : args.init with
    | true =>
      exfalso
      apply hinv
      rw [main_init L O args w hp hr hinit]
      exact (initMode_quiet O _ w).1
    | false =>
      refine ⟨rfl, ?_⟩
      cases hfile : w.files (manifestPath O args) with
      | none =>
        exfalso
        obtain ⟨e, he⟩ := main_abort L O args w hp hr hinit (Or.inl hfile)
        exact hinv (by rw [he])
      | some data =>
        cases hopen : O.fault Sys.Open with
        | true =>
          exfalso
          obtain ⟨e, he⟩ := main_abort L O args w hp hr hinit (Or.inr (Or.inl hopen))
          exact hinv (by rw [he])
        | false =>
          cases hparse : parse L O data with
          | none =>
            exfalso
            obtain ⟨e, he⟩ := main_abort L O args w hp hr hinit
              (Or.inr (Or.inr (Or.inl ⟨data, hfile, hparse⟩)))
            exact hinv (by rw [he])
          | some f =>
            cases hclose : O.fault Sys.CloseRead with
            | true =>
              exfalso
              obtain ⟨e, he⟩ := main_abort L O args w hp hr hinit (Or.inr (Or.inr (Or.inr hclose)))
              exact hinv (by rw [he])
            | false =>
              refine ⟨data, f, rfl, hparse, ?_⟩
              have hm := main_run L O args w data f hp hr hinit hfile hopen hparse hclose
              by_cases hadd : args.add.getD [] = []
              · right
                have hadd' : (resolve O (flagParse args).1).1.flagToolToAdd = [] := by
                  rw [flagToolToAdd_eq]
                  exact hadd
                have hd := runMode_default L O (resolve O (flagParse args).1).1 f w hadd'
                refine ⟨hadd, ?_⟩
                cases hx : (extractImports L f).2 with
                | error e =>
                  exfalso
                  apply hinv
                  rw [hm, hd.2 e hx]
                | ok toolpaths => exact ⟨toolpaths, rfl⟩
              · left
                have hadd' : (resolve O (flagParse args).1).1.flagToolToAdd ≠ [] := by
                  rw [flagToolToAdd_eq]
                  exact hadd
                have hd := runMode_add L O (resolve O (flagParse args).1).1 f w hadd'
                rw [flagToolToAdd_eq] at hd
                refine ⟨hadd, ?_⟩
                by_contra hok
                apply hinv
                rw [hm]
                refine (hd.2 ?_).1
                by_contra hc
                apply hok
                push_neg at hc
                exact ⟨hc.1, hc.2⟩

/-- C7 on the example manifest: default mode, `-add`, and `-init` together
with `-add` on a world with and without the manifest. -/
theorem main_mode_precedence_witness :
    (flagParse { f := none, init := false, add := none }).2 = none ∧
    (resolve exOS (flagParse { f := none, init := false, add := none }).1).2 = none ∧
    exWorld.files (manifestPath exOS { f := none, init := false, add := none }) =
      some exManifest ∧
    parse exLib exOS exManifest = some exParsed ∧
    (extractImports exLib exParsed).2 =
      Except.ok [str "example.com/a/tool", str "example.com/b/tool"] ∧
    invocations (main exLib exOS { f := none, init := false, add := none } exWorld).1.trace =
      [(str "example.com/a/tool", true), (str "example.com/b/tool", true)] ∧
    invocations (main exLib exOS
        { f := none, init := false, add := some (str "example.com/c/tool") } exWorld).1.trace =
      [(str "example.com/c/tool", true)] ∧
    main exLib exOS { f := none, init := true, add := some (str "example.com/c/tool") } exWorld =
      (exWorld, Exit.fatal Err.cannotOpen) ∧
    (main exLib exOS { f := none, init := true, add := some (str "example.com/c/tool") }
        emptyWorld).1.trace =
      [Event.stored (str "/work/tools.go") [], Event.stored (str "/work/tools.go") boilerplate] :=
  ⟨rfl, rfl, by decide, rfl, rfl,
   (((main_mode_precedence exLib exOS { f := none, init := false, add := none } exWorld
      rfl rfl).2.1 rfl exManifest exParsed (by decide) rfl rfl rfl).2 rfl
      [str "example.com/a/tool", str "example.com/b/tool"] rfl).1,
   ((main_mode_precedence exLib exOS
      { f := none, init := false, add := some (str "example.com/c/tool") } exWorld
      rfl rfl).2.1 rfl exManifest exParsed (by decide) rfl rfl rfl).1 (by decide) (by decide)
      (by decide),
   ((main_mode_precedence exLib exOS
      { f := none, init := true, add := some (str "example.com/c/tool") } exWorld
      rfl rfl).1 rfl).2.2.2.2.1 (by decide),
   (((main_mode_precedence exLib exOS
      { f := none, init := true, add := some (str "example.com/c/tool") } emptyWorld
      rfl rfl).1 rfl).2.2.2.2.2 rfl rfl rfl rfl).2.1⟩

theorem parse_ofDecls {σ ι : Type} (L : GoLib σ) (O : OS ι) (data : GoString) (f : ast.File σ)
    (h : parse L O data = some f) : f.Imports = ast.specsOf f.Decls := by
  unfold parse at h
  split at h
  · cases h
  · split at h
    · cases h
    · injection h with h
      rw [← h]
      rfl

theorem addImport_ok_mem {σ : Type} (L : GoLib σ) (flag : GoString) (f : ast.File σ)
    (path : GoString) (hf : f.Imports = ast.specsOf f.Decls) (hbytes : ∀ b ∈ path, b < 256)
    (h : (addImport L flag f path).2 = none) :
    blankImport (strconv.Quote L.isPrintTable path) ∈ (addImport L flag f path).1.Imports := by
  have hq := Unquote_Quote L.isPrintTable path hbytes
  cases hi : astutil.imports f (str "_") path with
  | true =>
    rw [addImport_of_imports L flag f path hi] at h
    simp at h
  | false =>
    obtain ⟨_, _, hI⟩ := addImport_of_not_imports L flag f path hi
    rw [hI]
    refine (sortSlice_perm _).mem_iff.mpr ?_
    have hperm := addedDecls_perm L f path (blankImport (strconv.Quote L.isPrintTable path))
    obtain ⟨t, ht, hkp, hkn⟩ := sortImports_key _ _
      (hperm.mem_iff.mpr (List.mem_append_right _ (List.mem_singleton.mpr rfl)))
    rcases List.mem_append.mp (hperm.mem_iff.mp (sortImports_subset _ t ht)) with ht0 | ht0
    · exfalso
      have : astutil.imports f (str "_") path = true := by
        refine (imports_eq_true f _ _).mpr ⟨t, hf ▸ ht0, ?_, ?_⟩
        · exact hkn
        · exact hkp.trans (importPath_of_unquote _ _ (by simpa [blankImport] using hq))
      rw [hi] at this
      cases this
    · exact (List.mem_singleton.mp ht0) ▸ ht

/-- C8: in add mode, once the manifest is read and parsed (`hbytes` says
that the path is a string of bytes): when `addImport` and `writeTools`
succeed, the trace of `main` shows the manifest file being
truncated and given the text of the edited document, which has a blank import
of the new path, before the one installer invocation, and the file holds that
text at the end whether the invocation succeeded or failed; when `addImport`
or `writeTools` fails, `main` ends with a fatal error without any installer
invocation. -/
theorem add_mode_writes_before_install {σ ι : Type} (L : GoLib σ) (O : OS ι) (args : CmdLine)
    (w : World ι) (data : GoString) (f : ast.File σ) (add : GoString)
    (hp : (flagParse args).2 = none) (hr : (resolve O (flagParse args).1).2 = none)
    (hinit : args.init = false) (hadd : args.add = some add) (hne : add ≠ [])
    (hbytes : ∀ b ∈ add, b < 256)
    (hfile : w.files (manifestPath O args) = some data) (hopen : O.fault Sys.Open = false)
    (hparse : parse L O data = some f) (hclose : O.fault Sys.CloseRead = false) :
    ((addImport L add f add).2 = none →
      (writeTools L O (addImport L add f add).1 (manifestPath O args) w).2 = none →
      ∃ text, L.formatNode (addImport L add f add).1 = some text ∧
        blankImport (strconv.Quote L.isPrintTable add) ∈ (addImport L add f add).1.Imports ∧
        (main L O args w).1.trace =
          w.trace ++ [Event.stored (manifestPath O args) [],
            Event.stored (manifestPath O args) text,
            Event.installing add, Event.ran add (O.goInstall w.toolchain add).2] ∧
        (main L O args w).1.files (manifestPath O args) = some text ∧
        ((O.goInstall w.toolchain add).2 = true → (main L O args w).2 = Exit.ok) ∧
        ((O.goInstall w.toolchain add).2 = false →
          (main L O args w).2 = Exit.fatal Err.unableToInstall)) ∧
    (((addImport L add f add).2 ≠ none ∨
      (writeTools L O (addImport L add f add).1 (manifestPath O args) w).2 ≠ none) →
      invocations (main L O args w).1.trace = invocations w.trace ∧
      (main L O args w).1.toolchain = w.toolchain ∧
      ∃ e, (main L O args w).2 = Exit.fatal e) := by
  have hg : args.add.getD [] = add := by simp [hadd]
  have hadd' : (resolve O (flagParse args).1).1.flagToolToAdd ≠ [] := by
    rw [flagToolToAdd_eq, hg]
    exact hne
  have hd := runMode_add L O (resolve O (flagParse args).1).1 f w hadd'
  rw [flagToolToAdd_eq, hg] at hd
  rw [main_run L O args w data f hp hr hinit hfile hopen hparse hclose]
  refine ⟨fun ha hw => ?_, fun h => hd.2 h⟩
  obtain ⟨text, htext, hw1⟩ := writeTools_ok L O _ _ w hw
  rw [hd.1 ha hw]
  simp only [manifestPath] at hw1 ⊢
  rw [hw1]
  refine ⟨text, htext,
    addImport_ok_mem L add f add (parse_ofDecls L O data f hparse) hbytes ha, ?_, ?_, ?_, ?_⟩
  · rw [exitOf_fst, installTools_trace]
    simp [World.store, runUntilFailure, installEvents]
  · rw [exitOf_fst, installTools_files]
    simp [World.store, setFile]
  · intro hok
    simp [exitOf, installTools, World.store, hok]
  · intro hok
    simp [exitOf, installTools, World.store, hok]

/-- C8 on the example manifest with a tool whose installation fails. -/
theorem add_mode_writes_before_install_witness :
    (flagParse { f := none, init := false, add := some (str "b") }).2 = none ∧
    (resolve exOS (flagParse { f := none, init := false, add := some (str "b") }).1).2 = none ∧
    str "b" ≠ [] ∧
    (∀ c ∈ str "b", c < 256) ∧
    exWorld.files (manifestPath exOS { f := none, init := false, add := some (str "b") }) =
      some exManifest ∧
    parse exLib exOS exManifest = some exParsed ∧
    (addImport exLib (str "b") exParsed (str "b")).2 = none ∧
    (writeTools exLib exOS (addImport exLib (str "b") exParsed (str "b")).1
      (manifestPath exOS { f := none, init := false, add := some (str "b") }) exWorld).2 = none ∧
    (exOS.goInstall exWorld.toolchain (str "b")).2 = false ∧
    ∃ text, exLib.formatNode (addImport exLib (str "b") exParsed (str "b")).1 = some text ∧
      (main exLib exOS { f := none, init := false, add := some (str "b") } exWorld).1.files
        (manifestPath exOS { f := none, init := false, add := some (str "b") }) = some text ∧
      (main exLib exOS { f := none, init := false, add := some (str "b") } exWorld).2 =
        Exit.fatal Err.unableToInstall :=
  ⟨rfl, rfl, by decide, by decide, by decide, rfl, by decide, by decide, by decide,
   (fun h => ⟨h.choose, h.choose_spec.1, h.choose_spec.2.2.2.1, h.choose_spec.2.2.2.2.2 (by decide)⟩)
     ((add_mode_writes_before_install exLib exOS { f := none, init := false, add := some (str "b") }
        exWorld exManifest exParsed (str "b") rfl rfl rfl rfl (by decide) (by decide) (by decide)
        rfl rfl rfl).1
        (by decide) (by decide))⟩

/-! ### The -f flag -/

theorem dot_or_self_ne_nil (out : GoString) :
    (if out.length = 0 then str "." else out) ≠ [] := by
  split
  · decide
  · rename_i h
    intro e
    exact h (by rw [e]; rfl)

theorem Clean_ne_nil (p : GoString) : path.Clean p ≠ [] := by
  unfold path.Clean
  split
  · decide
  · exact dot_or_self_ne_nil _

/-- C10: `pathnameFlag.Set` fails exactly when the given string is empty, and
then leaves the stored path as it was; otherwise it stores `path.Clean` of the
string, which is never empty.  So after `-f v` with a non-empty `v`, the
manifest path resolution of `main` keeps the cleaned `v` and does not consult
the working directory, and `-f` with an empty value ends the run in
`flag.Parse`. -/
theorem pathnameFlag_Set_spec {σ ι : Type} (L : GoLib σ) (O : OS ι) (f pathname : GoString)
    (args : CmdLine) (w : World ι) :
    ((pathnameFlag.Set f pathname).2 ≠ none ↔ pathname = []) ∧
    (pathname = [] → (pathnameFlag.Set f pathname).1 = f) ∧
    (pathname ≠ [] → (pathnameFlag.Set f pathname).1 = path.Clean pathname ∧
      (pathnameFlag.Set f pathname).1 ≠ []) ∧
    (args.f = some pathname → pathname ≠ [] →
      (flagParse args).2 = none ∧
      resolve O (flagParse args).1 = ((flagParse args).1, none) ∧
      manifestPath O args = path.Clean pathname) ∧
    (args.f = some pathname → pathname = [] →
      main L O args w = (w, Exit.usage Err.emptyPathname)) := by
  refine ⟨?_, ?_, ?_, ?_, ?_⟩
  · by_cases h : pathname = [] <;> simp [pathnameFlag.Set, h]
  · intro h
    simp [pathnameFlag.Set, h]
  · intro h
    simp [pathnameFlag.Set, h, Clean_ne_nil]
  · intro hf hne
    have h1 : (flagParse args).1.flagToolsFilePathname = path.Clean pathname := by
      simp [flagParse, hf, pathnameFlag.Set, hne]
    have h2 : (flagParse args).2 = none := by
      simp [flagParse, hf, pathnameFlag.Set, hne]
    have h3 : resolve O (flagParse args).1 = ((flagParse args).1, none) := by
      simp [resolve, pathnameFlag.String, h1, Clean_ne_nil]
    exact ⟨h2, h3, by simp [manifestPath, h3, pathnameFlag.String, h1]⟩
  · intro hf he
    simp [main, flagParse, hf, pathnameFlag.Set, he]

/-- C10 on a path with redundant elements and on the empty path. -/
theorem pathnameFlag_Set_spec_witness :
    ({ f := some (str "./conf/../tools.go"), init := false, add := none } : CmdLine).f =
      some (str "./conf/../tools.go") ∧
    str "./conf/../tools.go" ≠ [] ∧
    (pathnameFlag.Set [] (str "./conf/../tools.go")).1 = str "tools.go" ∧
    manifestPath exOS { f := some (str "./conf/../tools.go"), init := false, add := none } =
      path.Clean (str "./conf/../tools.go") ∧
    ({ f := some [], init := false, add := none } : CmdLine).f = some [] ∧
    main exLib exOS { f := some [], init := false, add := none } exWorld =
      (exWorld, Exit.usage Err.emptyPathname) :=
  ⟨rfl, by decide, by decide,
   ((pathnameFlag_Set_spec exLib exOS [] (str "./conf/../tools.go")
      { f := some (str "./conf/../tools.go"), init := false, add := none } exWorld).2.2.2.1
      rfl (by decide)).2.2,
   rfl,
   (pathnameFlag_Set_spec exLib exOS [] []
      { f := some [], init := false, add := none } exWorld).2.2.2.2 rfl rfl⟩

end Toolman
